import Mathlib

set_option maxHeartbeats 1000000

/-!
Verification of the version-resolution and archive-extraction pipeline in
src/process_packages.py.  Python strings are modelled as lists of characters
(`PStr`), raw archive bytes as lists of naturals, and the filesystem contents
seen by one run as explicit lists of archive values.  Each definition below is
a direct translation of the corresponding Python function or library call.
-/

abbrev PStr := List Char

/-! ### Character classes used by the regular expressions in the source -/

def isAsciiDigit (c : Char) : Bool := 48 ≤ c.toNat && c.toNat ≤ 57

def isAsciiAlpha (c : Char) : Bool :=
  (97 ≤ c.toNat && c.toNat ≤ 122) || (65 ≤ c.toNat && c.toNat ≤ 90)

/-- The character class `[a-zA-Z0-9\._\-]` of the `name` group of
`PKG_VERSION_RE`. -/
def nameClass (c : Char) : Bool :=
  isAsciiAlpha c || isAsciiDigit c || c = '.' || c = '_' || c = '-'

/-- The character class `[a-zA-Z0-9\-\._]` of the tail of the `suffix` group of
`PKG_VERSION_RE` (the same set of characters as `nameClass`). -/
def suffixTailClass (c : Char) : Bool :=
  isAsciiAlpha c || isAsciiDigit c || c = '-' || c = '.' || c = '_'

/-! ### The Version Parser: `PKG_VERSION_RE`

`PKG_VERSION_RE` is
`^(?P<name>[a-zA-Z0-9\._\-]+?)\.(?P<v_prefix>v)?(?P<major>[0-9]+)`
`(?:\.(?P<minor>[0-9]+))?(?:\.(?P<patch>[0-9]+))?`
`(?P<suffix>[~\+\-][a-zA-Z0-9\-\._]*)?$`.
The matcher below reproduces Python `re.match` backtracking: the non-greedy
name tries the shortest prefix first, optional groups prefer to match, and a
greedy digit run `[0-9]+` can only match maximally because every continuation
after it starts with a non-digit (`.`, `~`, `+`, `-`, or end of string). -/

structure PkgGroups where
  name : PStr
  vPrefix : Bool
  major : PStr
  minor : Option PStr
  patch : Option PStr
  suffix : Option PStr
deriving DecidableEq, Repr

structure VGroups where
  vPrefix : Bool
  major : PStr
  minor : Option PStr
  patch : Option PStr
  suffix : Option PStr
deriving DecidableEq, Repr

/-- `(?P<suffix>[~\+\-][a-zA-Z0-9\-\._]*)?$`: the greedy `*` must reach the
end of the string, so the suffix group matches exactly when the whole
remainder is a well-formed suffix; otherwise the group is skipped, which
requires the remainder to be empty. -/
def matchSuffixEnd (u : PStr) : Option (Option PStr) :=
  match u with
  | [] => some none
  | c :: rest =>
    if (c = '~' || c = '+' || c = '-') && rest.all suffixTailClass then
      some (some (c :: rest))
    else none

/-- Matches a prefix `\.[0-9]+` and returns the digit capture and remainder. -/
def matchDotNum (u : PStr) : Option (PStr × PStr) :=
  match u with
  | '.' :: t =>
    let ds := t.takeWhile isAsciiDigit
    if ds = [] then none else some (ds, t.dropWhile isAsciiDigit)
  | _ => none

/-- `(?:\.(?P<patch>[0-9]+))?` followed by the suffix group and `$`;
the optional group prefers to match (Python backtracking order). -/
def matchPatchSuffix (u : PStr) : Option (Option PStr × Option PStr) :=
  (match matchDotNum u with
   | some (pa, r) => (matchSuffixEnd r).map (fun su => (some pa, su))
   | none => none)
  <|> (matchSuffixEnd u).map (fun su => ((none : Option PStr), su))

/-- `(?:\.(?P<minor>[0-9]+))?` followed by the patch and suffix groups. -/
def matchMinorRest (u : PStr) : Option (Option PStr × Option PStr × Option PStr) :=
  (match matchDotNum u with
   | some (mi, r) => (matchPatchSuffix r).map (fun x => (some mi, x.1, x.2))
   | none => none)
  <|> (matchPatchSuffix u).map (fun x => ((none : Option PStr), x.1, x.2))

/-- The part of `PKG_VERSION_RE` after the name's separating dot:
`(?P<v_prefix>v)?(?P<major>[0-9]+)` then minor/patch/suffix. -/
def matchVersionTail (t : PStr) : Option VGroups :=
  let core := fun (u : PStr) (vp : Bool) =>
    let ds := u.takeWhile isAsciiDigit
    if ds = [] then none
    else (matchMinorRest (u.dropWhile isAsciiDigit)).map
      (fun x => ({ vPrefix := vp, major := ds, minor := x.1,
                   patch := x.2.1, suffix := x.2.2 } : VGroups))
  match t with
  | c :: t2 => if c = 'v' then core t2 true <|> core (c :: t2) false else core (c :: t2) false
  | [] => core [] false

/-- Walks the candidate name prefixes from shortest to longest (the non-greedy
`+?`): at every literal `.` with a nonempty name accumulated so far, try to
match the version tail; on failure the dot is absorbed into the name (the dot
is inside the name's character class) and scanning continues. -/
def pkgMatchAux : PStr → PStr → Option PkgGroups
  | _, [] => none
  | acc, c :: t =>
    if c = '.' ∧ acc ≠ [] then
      match matchVersionTail t with
      | some g => some { name := acc.reverse, vPrefix := g.vPrefix, major := g.major,
                         minor := g.minor, patch := g.patch, suffix := g.suffix }
      | none => if nameClass c then pkgMatchAux (c :: acc) t else none
    else if nameClass c then pkgMatchAux (c :: acc) t else none

/-- `PKG_VERSION_RE.match(dirname)` with its captures. -/
def pkgVersionMatch (s : PStr) : Option PkgGroups := pkgMatchAux [] s

/-! ### The `semver` library: `VersionInfo.parse`, comparison, `str` -/

structure SemVer where
  major : Nat
  minor : Nat
  patch : Nat
  prerelease : Option PStr
  build : Option PStr
deriving DecidableEq, Repr

def strToNat (s : PStr) : Nat := s.foldl (fun a c => a * 10 + (c.toNat - 48)) 0

/-- `0|[1-9]\d*`: a numeric field of a semantic version (no leading zeros). -/
def validNumCore (s : PStr) : Bool :=
  !s.isEmpty && s.all isAsciiDigit && (s = ['0'] || s.headD ' ' ≠ '0')

/-- `[0-9A-Za-z-]`, the character class of prerelease and build identifiers. -/
def preIdClass (c : Char) : Bool := isAsciiAlpha c || isAsciiDigit c || c = '-'

/-- One dot-separated prerelease identifier:
`0|[1-9]\d*|\d*[a-zA-Z-][0-9a-zA-Z-]*`. -/
def validPreId (s : PStr) : Bool :=
  !s.isEmpty && s.all preIdClass &&
    (if s.all isAsciiDigit then s = ['0'] || s.headD ' ' ≠ '0' else true)

/-- One dot-separated build identifier: `[0-9a-zA-Z-]+`. -/
def validBuildId (s : PStr) : Bool := !s.isEmpty && s.all preIdClass

def splitDotsAux : PStr → PStr → List PStr
  | acc, [] => [acc.reverse]
  | acc, c :: t => if c = '.' then acc.reverse :: splitDotsAux [] t else splitDotsAux (c :: acc) t

/-- Python `s.split(".")` (in particular `"".split(".") == [""]`). -/
def splitDots (s : PStr) : List PStr := splitDotsAux [] s

def validPre (p : PStr) : Bool := (splitDots p).all validPreId

def validBuild (b : PStr) : Bool := (splitDots b).all validBuildId

def takeDigits (s : PStr) : PStr × PStr := (s.takeWhile isAsciiDigit, s.dropWhile isAsciiDigit)

/-- Splits at the first occurrence of `sep`; returns the part before it and,
when the separator occurs, the part after it. -/
def splitOnFirst (sep : Char) : PStr → PStr × Option PStr
  | [] => ([], none)
  | c :: t =>
    if c = sep then ([], some t)
    else
      let r := splitOnFirst sep t
      (c :: r.1, r.2)

/-- The optional `-prerelease` and `+build` tail of a semantic version.
Prerelease identifiers cannot contain `+`, so the prerelease extends to the
first `+` (or the end) and the build follows it. -/
def semverParseTail (r : PStr) : Option (Option PStr × Option PStr) :=
  match r with
  | [] => some (none, none)
  | '-' :: t =>
    match splitOnFirst '+' t with
    | (pre, none) => if validPre pre then some (some pre, none) else none
    | (pre, some b) => if validPre pre && validBuild b then some (some pre, some b) else none
  | '+' :: t => if validBuild t then some (none, some t) else none
  | _ => none

/-- `semver.VersionInfo.parse`: `major.minor.patch[-prerelease][+build]` with
numeric fields free of leading zeros; returns `none` exactly when the library
raises `ValueError`. -/
def semverParse (s : PStr) : Option SemVer :=
  match takeDigits s with
  | (d1, '.' :: r2) =>
    match takeDigits r2 with
    | (d2, '.' :: r4) =>
      match takeDigits r4 with
      | (d3, r5) =>
        if validNumCore d1 && validNumCore d2 && validNumCore d3 then
          (semverParseTail r5).map
            (fun pb => ⟨strToNat d1, strToNat d2, strToNat d3, pb.1, pb.2⟩)
        else none
    | _ => none
  | _ => none

def natToStr (n : Nat) : PStr := (toString n).data

/-- `str(version)` for a parsed `VersionInfo`. -/
def semverStr (v : SemVer) : PStr :=
  natToStr v.major ++ '.' :: natToStr v.minor ++ '.' :: natToStr v.patch
  ++ (match v.prerelease with | none => [] | some p => '-' :: p)
  ++ (match v.build with | none => [] | some b => '+' :: b)

/-- Python integer comparison as an `Ordering`. -/
def nCmp (a b : Nat) : Ordering := if a < b then .lt else if a = b then .eq else .gt

/-- Python string comparison (lexicographic on code points). -/
def charCmp (a b : Char) : Ordering := nCmp a.toNat b.toNat

def lexCmp (c : α → α → Ordering) : List α → List α → Ordering
  | [], [] => .eq
  | [], _ :: _ => .lt
  | _ :: _, [] => .gt
  | a :: as, b :: bs => match c a b with | .eq => lexCmp c as bs | o => o

def listCharCmp (a b : PStr) : Ordering := lexCmp charCmp a b

/-- `int(text) if text.isdigit() else text` applied to one dot-part of a
prerelease string. -/
def convertPart (s : PStr) : Sum Nat PStr :=
  if !s.isEmpty && s.all isAsciiDigit then .inl (strToNat s) else .inr s

/-- `cmp_prerelease_tag` of the `semver` library: integers compare numerically,
an integer sorts below a string, strings compare lexicographically. -/
def partCmp : Sum Nat PStr → Sum Nat PStr → Ordering
  | .inl a, .inl b => nCmp a b
  | .inl _, .inr _ => .lt
  | .inr _, .inl _ => .gt
  | .inr a, .inr b => listCharCmp a b

/-- Pairwise comparison of two lists up to the shorter length (`zip` in the
library's `_nat_cmp`); exhausting either list yields `eq`. -/
def zipCmp (c : α → α → Ordering) : List α → List α → Ordering
  | a :: as, b :: bs => match c a b with | .eq => zipCmp c as bs | o => o
  | _, _ => .eq

/-- `_nat_cmp` of the `semver` library: split both strings on dots, compare
the converted parts pairwise, and on a pairwise tie compare the raw string
lengths. -/
def natCmpKeys (a b : PStr) : Ordering :=
  match zipCmp partCmp ((splitDots a).map convertPart) ((splitDots b).map convertPart) with
  | .eq => nCmp a.length b.length
  | o => o

def optFalsy : Option PStr → Bool
  | none => true
  | some s => s.isEmpty

/-- The prerelease step of `VersionInfo.compare`: equal keys are a tie, an
absent prerelease sorts above a present one, otherwise the `_nat_cmp` result
stands. -/
def prCmp (a b : Option PStr) : Ordering :=
  match natCmpKeys (a.getD []) (b.getD []) with
  | .eq => .eq
  | o => if optFalsy a then .gt else if optFalsy b then .lt else o

/-- `VersionInfo.compare`: major, then minor, then patch, then prerelease;
build metadata is ignored. -/
def semverCompare (a b : SemVer) : Ordering :=
  match nCmp a.major b.major with
  | .eq =>
    match nCmp a.minor b.minor with
    | .eq =>
      match nCmp a.patch b.patch with
      | .eq => prCmp a.prerelease b.prerelease
      | o => o
    | o => o
  | o => o

/-! ### The Version Resolver: `get_packages_from_cache` -/

structure PkgEntry where
  version_info : SemVer
  version_str : PStr
  dir : PStr
deriving DecidableEq, Repr

/-- Python `dict` assignment: replace in place when the key is present,
append otherwise (insertion order is preserved). -/
def dictUpsert (d : List (PStr × PkgEntry)) (k : PStr) (v : PkgEntry) :
    List (PStr × PkgEntry) :=
  match d with
  | [] => [(k, v)]
  | kv :: rest => if kv.1 = k then (k, v) :: rest else kv :: dictUpsert rest k v

def dictFind (d : List (PStr × PkgEntry)) (k : PStr) : Option PkgEntry :=
  match d with
  | [] => none
  | kv :: rest => if kv.1 = k then some kv.2 else dictFind rest k

/-- The string handed to `semver.VersionInfo.parse`: missing minor/patch
default to `0`, and a `~` suffix is rewritten to a `-` prerelease separator. -/
def versionStrForParse (g : PkgGroups) : PStr :=
  let minor := g.minor.getD ['0']
  let patch := g.patch.getD ['0']
  let suffix := g.suffix.getD []
  match suffix with
  | '~' :: sufTail => g.major ++ '.' :: minor ++ '.' :: patch ++ '-' :: sufTail
  | _ => g.major ++ '.' :: minor ++ '.' :: patch ++ suffix

/-- One loop iteration of `get_packages_from_cache`: match the directory name,
reject an empty captured name, parse the assembled version string, and replace
the retained entry only on strict semantic-version greater-than. -/
def scanDir (packages : List (PStr × PkgEntry)) (dirname : PStr) :
    List (PStr × PkgEntry) :=
  match pkgVersionMatch dirname with
  | none => packages
  | some g =>
    if g.name = [] then packages
    else
      match semverParse (versionStrForParse g) with
      | none => packages
      | some version =>
        match dictFind packages g.name with
        | none => dictUpsert packages g.name ⟨version, semverStr version, dirname⟩
        | some cur =>
          if semverCompare version cur.version_info = .gt then
            dictUpsert packages g.name ⟨version, semverStr version, dirname⟩
          else packages

/-- `get_packages_from_cache` over the cache directory listing. -/
def get_packages_from_cache (listing : List PStr) : List (PStr × PkgEntry) :=
  listing.foldl scanDir []

/-- The full parse of one directory name: the captured identifier together
with the semantic version the resolver would compare, when both steps
succeed. -/
def dirParse (d : PStr) : Option (PStr × SemVer) :=
  match pkgVersionMatch d with
  | none => none
  | some g =>
    if g.name = [] then none
    else (semverParse (versionStrForParse g)).map (fun v => (g.name, v))

/-! ### The Archive Reader: `process_archive_file`

An archive on disk is modelled by its path (the dispatch in the source looks
only at the path's suffix), a flag saying whether opening/iterating the
archive raises (`BadZipFile` / `tarfile.ReadError` / any other exception, all
of which abandon the whole archive), and its member list.  A member carries
its in-archive path, whether it is a regular file (`is_dir()` negated for
zip, `member.isfile()` for tar), its raw bytes, and a flag saying whether
reading that single entry raises (such per-entry errors skip only the
entry). -/

structure Member where
  name : PStr
  isFile : Bool
  content : List Nat
  readOk : Bool
deriving DecidableEq, Repr

structure Archive where
  path : PStr
  openOk : Bool
  members : List Member
deriving DecidableEq, Repr

def endsWithS (suf s : PStr) : Bool := suf.isSuffixOf s

/-- The suffix dispatch of `process_archive_file`: `.zip` and the tar family
`.tar.gz`, `.tgz`, `.tar.bz2`, `.tbz`; anything else is an unsupported
format and yields nothing. -/
def supportedArchivePath (p : PStr) : Bool :=
  endsWithS (".zip").data p || endsWithS (".tar.gz").data p || endsWithS (".tgz").data p
  || endsWithS (".tar.bz2").data p || endsWithS (".tbz").data p

/-- `os.path.basename`: the part after the last `/`. -/
def basenameOf (p : PStr) : PStr := ((p.reverse).takeWhile (fun c => c ≠ '/')).reverse

/-- The extension part of `os.path.splitext` (with its dot): the suffix from
the last dot of the basename, unless every character of the basename before
that dot is itself a dot. -/
def splitextExt (p : PStr) : PStr :=
  let b := basenameOf p
  let stem := b.dropWhile (fun c => c = '.')
  if stem.any (fun c => c = '.') then
    '.' :: ((stem.reverse).takeWhile (fun c => c ≠ '.')).reverse
  else []

/-- The file kind computed in `process_archive_file`:
`splitext` extension with leading dots stripped (`lstrip('.')`), overridden
to `dune` for any file whose basename is exactly `dune`. -/
def fileKind (p : PStr) : PStr :=
  let ext := (splitextExt p).dropWhile (fun c => c = '.')
  if basenameOf p = ("dune").data then ("dune").data else ext

/-- Strict UTF-8 decoding of raw bytes, as `bytes.decode('utf-8')`:
rejects bad lead/continuation bytes, overlong forms, surrogates and code
points above U+10FFFF. -/
def utf8Decode : List Nat → Option PStr
  | [] => some []
  | b :: rest =>
    if b ≤ 0x7F then (utf8Decode rest).map (fun s => Char.ofNat b :: s)
    else if b < 0xC2 then none
    else if b ≤ 0xDF then
      match rest with
      | b1 :: r =>
        if 0x80 ≤ b1 && b1 ≤ 0xBF then
          (utf8Decode r).map (fun s => Char.ofNat ((b - 0xC0) * 0x40 + (b1 - 0x80)) :: s)
        else none
      | [] => none
    else if b ≤ 0xEF then
      match rest with
      | b1 :: b2 :: r =>
        let lo := if b = 0xE0 then 0xA0 else 0x80
        let hi := if b = 0xED then 0x9F else 0xBF
        if (lo ≤ b1 && b1 ≤ hi) && (0x80 ≤ b2 && b2 ≤ 0xBF) then
          (utf8Decode r).map
            (fun s => Char.ofNat ((b - 0xE0) * 0x1000 + (b1 - 0x80) * 0x40 + (b2 - 0x80)) :: s)
        else none
      | _ => none
    else if b ≤ 0xF4 then
      match rest with
      | b1 :: b2 :: b3 :: r =>
        let lo := if b = 0xF0 then 0x90 else 0x80
        let hi := if b = 0xF4 then 0x8F else 0xBF
        if (lo ≤ b1 && b1 ≤ hi) && (0x80 ≤ b2 && b2 ≤ 0xBF) && (0x80 ≤ b3 && b3 ≤ 0xBF) then
          (utf8Decode r).map
            (fun s => Char.ofNat ((b - 0xF0) * 0x40000 + (b1 - 0x80) * 0x1000
                                   + (b2 - 0x80) * 0x40 + (b3 - 0x80)) :: s)
        else none
      | _ => none
    else none

def hexDigitLower (n : Nat) : Char := if n < 10 then Char.ofNat (48 + n) else Char.ofNat (87 + n)

/-- One byte of `str(bytes)` output: backslash and the quote character are
backslash-escaped, tab/newline/carriage-return use their short escapes,
printable ASCII is kept, everything else becomes `\xhh`. -/
def pyByteEsc (q : Char) (b : Nat) : PStr :=
  if b = 92 then ['\\', '\\']
  else if b = q.toNat then ['\\', q]
  else if b = 9 then ['\\', 't']
  else if b = 10 then ['\\', 'n']
  else if b = 13 then ['\\', 'r']
  else if 0x20 ≤ b && b < 0x7F then [Char.ofNat b]
  else ['\\', 'x', hexDigitLower (b / 16), hexDigitLower (b % 16)]

/-- `str(content)` for a `bytes` value: the `repr`, quoted with `'` unless the
bytes contain `'` but no `"`. -/
def pyBytesRepr (bs : List Nat) : PStr :=
  let q : Char := if bs.contains 39 && !(bs.contains 34) then Char.ofNat 34 else Char.ofNat 39
  'b' :: q :: (bs.flatMap (pyByteEsc q)) ++ [q]

/-- `content.decode('utf-8')` with the `UnicodeDecodeError` fallback
`content = str(content)`. -/
def decodeContent (bs : List Nat) : PStr :=
  match utf8Decode bs with
  | some s => s
  | none => pyBytesRepr bs

/-- One `(file-kind, in-archive path, content)` tuple passed to
`processor_func`. -/
structure XFile where
  kind : PStr
  path : PStr
  content : PStr
deriving DecidableEq, Repr

/-- The default `file_extensions` tuple of `process_archive_file`. -/
def defaultExts : List PStr :=
  [("ml").data, ("mli").data, ("dune").data, ("h").data, ("c").data, ("opam").data]

/-- `process_archive_file`: the sequence of calls made to `processor_func`.
Unsupported suffixes and unreadable archives produce nothing; directory
members are skipped; members whose kind is outside the target set are
skipped; a member whose extraction raises is skipped; the content of a
yielded member is UTF-8 decoded with the lossy `str(bytes)` fallback. -/
def process_archive_file (a : Archive) (exts : List PStr) : List XFile :=
  if !supportedArchivePath a.path then []
  else if !a.openOk then []
  else
    a.members.filterMap (fun m =>
      if !m.isFile then none
      else
        let ext := fileKind m.name
        if ext ∈ exts then
          if m.readOk then some ⟨ext, m.name, decodeContent m.content⟩ else none
        else none)

/-! ### The Metadata Extractor: `extract_metadata_from_archive` -/

structure Metadata where
  license : PStr
  homepage : PStr
  dev_repo : PStr
deriving DecidableEq, Repr

def unknownS : PStr := ("Unknown").data

def initMeta : Metadata := ⟨unknownS, unknownS, unknownS⟩

/-- ASCII whitespace stripped by `str.strip()`. -/
def isPySpace (c : Char) : Bool :=
  c = ' ' || c = '\t' || c = '\n' || c = '\r' || c.toNat = 11 || c.toNat = 12

def pyStrip (s : PStr) : PStr := ((s.dropWhile isPySpace).reverse.dropWhile isPySpace).reverse

/-- `str.strip('"')`. -/
def stripQuotes (s : PStr) : PStr :=
  ((s.dropWhile (fun c => c.toNat = 34)).reverse.dropWhile (fun c => c.toNat = 34)).reverse

/-- `line.split(":", 1)[1]` for a line known to contain a colon (the callers
guard with `startswith`); total on other strings. -/
def afterFirstColon (s : PStr) : PStr := (s.dropWhile (fun c => c ≠ ':')).tail

/-- Line-break characters recognised by `str.splitlines()` other than the
`\r`/`\r\n` pair, which is handled separately. -/
def isLineBreak (c : Char) : Bool :=
  c = '\n' || c.toNat = 11 || c.toNat = 12 || c.toNat = 28 || c.toNat = 29 || c.toNat = 30
  || c.toNat = 133 || c.toNat = 8232 || c.toNat = 8233

def splitlinesAux : PStr → PStr → List PStr
  | acc, [] => if acc = [] then [] else [acc.reverse]
  | acc, '\r' :: '\n' :: t => acc.reverse :: splitlinesAux [] t
  | acc, '\r' :: t => acc.reverse :: splitlinesAux [] t
  | acc, c :: t =>
    if isLineBreak c then acc.reverse :: splitlinesAux [] t else splitlinesAux (c :: acc) t

/-- Python `content.splitlines()`. -/
def splitlines (s : PStr) : List PStr := splitlinesAux [] s

def startsWithS (pre s : PStr) : Bool := pre.isPrefixOf s

/-- One line of the opam manifest scan in `process_opam_file`: accept
`key:` and `key :` for each of the three fields, take the part after the
first colon, strip whitespace and surrounding double quotes. -/
def opamLineStep (md : Metadata) (rawLine : PStr) : Metadata :=
  let line := pyStrip rawLine
  if startsWithS ("license:").data line || startsWithS ("license :").data line then
    { md with license := stripQuotes (pyStrip (afterFirstColon line)) }
  else if startsWithS ("homepage:").data line || startsWithS ("homepage :").data line then
    { md with homepage := stripQuotes (pyStrip (afterFirstColon line)) }
  else if startsWithS ("dev-repo:").data line || startsWithS ("dev-repo :").data line then
    { md with dev_repo := stripQuotes (pyStrip (afterFirstColon line)) }
  else md

/-- The `opam_file_pattern` test `^(?:<base>\.opam|opam)$` applied to a
basename (the base name is `re.escape`d, so this is exact string equality). -/
def opamNamePattern (base fname : PStr) : Prop :=
  fname = base ++ (".opam").data ∨ fname = ("opam").data

instance (base fname : PStr) : Decidable (opamNamePattern base fname) := by
  unfold opamNamePattern; infer_instance

/-- The closure `process_opam_file`: parse the manifest lines into the shared
metadata when the entry has kind `opam` and its basename matches the opam
file pattern. -/
def process_opam_file (base : PStr) (md : Metadata) (f : XFile) : Metadata :=
  if f.kind = ("opam").data ∧ opamNamePattern base (basenameOf f.path) then
    (splitlines f.content).foldl opamLineStep md
  else md

/-- `extract_metadata_from_archive`: run the archive reader with target set
`('opam',)` and fold every produced entry through `process_opam_file`,
starting from the three `Unknown` sentinels. -/
def extract_metadata_from_archive (a : Archive) (base : PStr) : Metadata :=
  (process_archive_file a [("opam").data]).foldl (process_opam_file base) initMeta

/-! ### The per-package loop of `main` -/

/-- The archive-filename regex `^(.*?)(?:[._-](?:v\d|\d))` tested at the
current position: a separator followed by an optional `v` and a digit. -/
def sepVersionStart (u : PStr) : Bool :=
  match u with
  | c :: t =>
    (c = '.' || c = '_' || c = '-') &&
      (match t with
       | 'v' :: d :: _ => isAsciiDigit d
       | d :: _ => isAsciiDigit d
       | [] => false)
  | [] => false

/-- The non-greedy scan of `re.match(r"^(.*?)(?:[._-](?:v\d|\d))", fname)`:
the earliest position where a separator+digit occurs wins; `.` does not match
a newline, so the scan stops at one. -/
def findVersionSplitAux : PStr → PStr → Option PStr
  | accRev, u =>
    if sepVersionStart u then some accRev.reverse
    else
      match u with
      | [] => none
      | c :: t => if c = '\n' then none else findVersionSplitAux (c :: accRev) t

/-- The metadata base-name hint taken from the archive filename in `main`:
the captured prefix when it is nonempty, otherwise the directory-derived
package name. -/
def metaNameHint (packageName fname : PStr) : PStr :=
  match findVersionSplitAux [] fname with
  | none => packageName
  | some g => if g ≠ [] ∧ g ≠ packageName then g else packageName

/-- The loop state of `main` for one package version: the metadata dict,
its `processed_opam_file_for_metadata` flag, and the accumulated
`current_package_contents`. -/
structure PkgState where
  md : Metadata
  flag : Bool
  files : List XFile
deriving DecidableEq, Repr

def anyMetaHit (m : Metadata) : Bool :=
  decide (m.license ≠ unknownS) || decide (m.homepage ≠ unknownS) || decide (m.dev_repo ≠ unknownS)

/-- One iteration of `for archive_path in archive_files` in `main`: consult
the archive's manifest only while the flag is unset, adopt its metadata
(and set the flag) exactly when some field is non-`Unknown`, then extend the
contents with the archive's extracted files. -/
def mainArchiveStep (packageName : PStr) (st : PkgState) (a : Archive) : PkgState :=
  let hint := metaNameHint packageName (basenameOf a.path)
  let st1 :=
    if st.flag then st
    else
      let cur := extract_metadata_from_archive a hint
      if anyMetaHit cur then { st with md := cur, flag := true } else st
  { st1 with files := st1.files ++ process_archive_file a defaultExts }

/-- The five `glob.glob` calls of `main`, in order: `*.tbz`, `*.tgz`,
`*.tar.gz`, `*.tar.bz2`, `*.zip` over the package version directory. -/
def globArchives (dirFiles : List Archive) : List Archive :=
  dirFiles.filter (fun a => endsWithS (".tbz").data a.path)
  ++ dirFiles.filter (fun a => endsWithS (".tgz").data a.path)
  ++ dirFiles.filter (fun a => endsWithS (".tar.gz").data a.path)
  ++ dirFiles.filter (fun a => endsWithS (".tar.bz2").data a.path)
  ++ dirFiles.filter (fun a => endsWithS (".zip").data a.path)

/-- One row appended to `package_data`. -/
structure Record where
  package_name : PStr
  version : PStr
  license : PStr
  homepage : PStr
  dev_repo : PStr
  files : List XFile
  error : Option PStr
deriving DecidableEq, Repr

def noArchiveMsg : PStr := ("No .tbz, .tgz, .tar.gz, .tar.bz2, or .zip archive found").data

def emptyArchiveMsg : PStr := ("Archives found but contained no processable files").data

def skippedS : PStr := ("Skipped").data

/-- The body of the package loop in `main` for a single resolved package
version, producing the one record appended to `package_data`. -/
def processPackage (packageName versionStr : PStr) (dirFiles : List Archive) : Record :=
  let archiveFiles := globArchives dirFiles
  if archiveFiles = [] then
    ⟨packageName, versionStr, skippedS, skippedS, skippedS, [], some noArchiveMsg⟩
  else
    let st := archiveFiles.foldl (mainArchiveStep packageName) ⟨initMeta, false, []⟩
    if st.files = [] then
      ⟨packageName, versionStr, st.md.license, st.md.homepage, st.md.dev_repo, [],
        some emptyArchiveMsg⟩
    else
      ⟨packageName, versionStr, st.md.license, st.md.homepage, st.md.dev_repo, st.files, none⟩

/-- The whole package loop of `main`: one record per resolved package
version, in resolver order; `fs` gives the directory contents of each
package version directory in the cache. -/
def mainRecords (pkgs : List (PStr × PkgEntry)) (fs : PStr → List Archive) : List Record :=
  pkgs.map (fun p => processPackage p.1 p.2.version_str (fs p.2.dir))

/-! ### The batched Parquet save at the end of `main` -/

/-- `num_batches = (len(dataset) + batch_size - 1) // batch_size`. -/
def numBatches (n batchSize : Nat) : Nat := (n + batchSize - 1) / batchSize

/-- `dataset.shard(num_shards, index)` of the `datasets` library (contiguous
shards): shard `i` is the rows from `div*i + min(i, mod)` of length
`div + (1 if i < mod else 0)`. -/
def datasetShard (rows : List Record) (numShards index : Nat) : List Record :=
  let n := rows.length
  let q := n / numShards
  let r := n % numShards
  let start := q * index + min index r
  let stop := start + q + (if index < r then 1 else 0)
  (rows.drop start).take (stop - start)

/-- `os.path.join(output_dir, f"opam_packages_batch_<i>.parquet")`. -/
def batchFileName (outputDir : PStr) (i : Nat) : PStr :=
  outputDir ++ '/' :: ("opam_packages_batch_").data ++ natToStr i ++ (".parquet").data

/-- The batch loop of `main`: each shard of the in-memory dataset is written
as its own final Parquet file in the output directory.  The result is the
list of (file path, rows written) pairs. -/
def saveParquetBatches (outputDir : PStr) (rows : List Record) (batchSize : Nat) :
    List (PStr × List Record) :=
  (List.range (numBatches rows.length batchSize)).map
    (fun i => (batchFileName outputDir i, datasetShard rows (numBatches rows.length batchSize) i))

/-! ### Concrete fixtures used by witness theorems -/

def asciiBytes (s : String) : List Nat := s.data.map Char.toNat

def sampleMemberMl : Member := ⟨("d/a.ml").data, true, asciiBytes "let x = 1", true⟩

def sampleArchive : Archive :=
  ⟨("foo-1.0.0.tbz").data, true,
    [⟨("d/").data, false, [], true⟩, sampleMemberMl,
     ⟨("d/notes.txt").data, true, asciiBytes "no", true⟩]⟩

def sampleXFileMl : XFile := ⟨("ml").data, ("d/a.ml").data, ("let x = 1").data⟩

def sampleBadMember : Member := ⟨("d/bad.ml").data, true, [0xff, 0x30], true⟩

def opamArchMIT : Archive :=
  ⟨("h2-0.13.0.tbz").data, true,
    [⟨("r/h2.opam").data, true, asciiBytes "license: \"MIT\"", true⟩]⟩

def opamArchGPL : Archive :=
  ⟨("post.tbz").data, true,
    [⟨("r/h2.opam").data, true, asciiBytes "license: \"GPL\"", true⟩]⟩

def plainArch : Archive := ⟨("pre.tbz").data, true, []⟩

def recA : Record := ⟨("a").data, ("1.0.0").data, unknownS, unknownS, unknownS, [], none⟩

def recB : Record := ⟨("b").data, ("2.0.0").data, unknownS, unknownS, unknownS, [], none⟩

def recC : Record := ⟨("c").data, ("3.0.0").data, unknownS, unknownS, unknownS, [], none⟩

/-! ### Theorems -/

/-- Membership characterization of the Archive Reader's output. -/
theorem mem_process_archive_file {a : Archive} {exts : List PStr} {f : XFile} :
    f ∈ process_archive_file a exts ↔
      supportedArchivePath a.path = true ∧ a.openOk = true ∧
      ∃ m, m ∈ a.members ∧ m.isFile = true ∧ fileKind m.name ∈ exts ∧ m.readOk = true ∧
        f = ⟨fileKind m.name, m.name, decodeContent m.content⟩ := by
  unfold process_archive_file
  by_cases h1 : supportedArchivePath a.path
  · by_cases h2 : a.openOk
    · simp only [h1, h2, Bool.not_true, Bool.false_eq_true, if_false, true_and,
        List.mem_filterMap]
      constructor
      · rintro ⟨m, hm, hsome⟩
        by_cases h3 : m.isFile
        · simp only [h3, Bool.not_true, Bool.false_eq_true, if_false] at hsome
          by_cases h4 : fileKind m.name ∈ exts
          · by_cases h5 : m.readOk
            · simp only [h4, h5, if_true, if_pos, Option.some.injEq] at hsome
              exact ⟨m, hm, h3, h4, h5, hsome.symm⟩
            · simp [h4, h5] at hsome
          · simp [h4] at hsome
        · simp [h3] at hsome
      · rintro ⟨m, hm, h3, h4, h5, rfl⟩
        exact ⟨m, hm, by simp [h3, h4, h5]⟩
    · simp [h1, h2]
  · simp [h1]

/-- **C10.** For every archive, the Archive Reader run with its default target
set yields only entries whose kind is one of exactly `ml`, `mli`, `dune`, `h`,
`c`, `opam`; each yielded entry's kind is the kind computed from its path
(extension without the leading dot, with a bare `dune` basename forced to kind
`dune`), and every yielded entry comes from a regular-file member of the
archive — directory members are never yielded. -/
theorem C10_default_target_kinds (a : Archive) (f : XFile)
    (hf : f ∈ process_archive_file a defaultExts) :
    f.kind ∈ defaultExts ∧ f.kind = fileKind f.path ∧
    (basenameOf f.path = ("dune").data → f.kind = ("dune").data) ∧
    ∃ m, m ∈ a.members ∧ m.isFile = true ∧ m.name = f.path ∧
      f.content = decodeContent m.content := by
  rw [mem_process_archive_file] at hf
  obtain ⟨-, -, m, hm, h3, h4, h5, rfl⟩ := hf
  refine ⟨h4, rfl, ?_, m, hm, h3, rfl, rfl⟩
  intro hdune
  simp only [fileKind, hdune, if_pos]

theorem C10_default_target_kinds_witness :
    sampleXFileMl ∈ process_archive_file sampleArchive defaultExts ∧
    (sampleXFileMl.kind ∈ defaultExts ∧ sampleXFileMl.kind = fileKind sampleXFileMl.path ∧
     (basenameOf sampleXFileMl.path = ("dune").data → sampleXFileMl.kind = ("dune").data) ∧
     ∃ m, m ∈ sampleArchive.members ∧ m.isFile = true ∧ m.name = sampleXFileMl.path ∧
       sampleXFileMl.content = decodeContent m.content) :=
  ⟨by decide, C10_default_target_kinds sampleArchive sampleXFileMl (by decide)⟩

/-- **C8.** A matched archive entry whose raw bytes are not valid UTF-8 is
still yielded, with content equal to the deterministic lossy `str(bytes)`
rendering of the raw bytes, and the entries before and after it in the same
archive are processed exactly as they would be on their own. -/
theorem C8_lossy_decode_continues (p : PStr) (l₁ l₂ : List Member) (m : Member)
    (exts : List PStr) (hp : supportedArchivePath p = true) (hf : m.isFile = true)
    (hr : m.readOk = true) (hk : fileKind m.name ∈ exts)
    (hd : utf8Decode m.content = none) :
    process_archive_file ⟨p, true, l₁ ++ m :: l₂⟩ exts =
      process_archive_file ⟨p, true, l₁⟩ exts
      ++ ⟨fileKind m.name, m.name, pyBytesRepr m.content⟩
        :: process_archive_file ⟨p, true, l₂⟩ exts := by
  unfold process_archive_file
  simp only [hp, Bool.not_true, Bool.false_eq_true, if_false, List.filterMap_append,
    List.filterMap_cons]
  simp only [hf, hr, hk, Bool.not_true, Bool.false_eq_true, if_false, if_true, if_pos]
  simp [decodeContent, hd]

theorem C8_lossy_decode_continues_witness :
    supportedArchivePath ("foo-1.0.0.tbz").data = true ∧
    sampleBadMember.isFile = true ∧ sampleBadMember.readOk = true ∧
    fileKind sampleBadMember.name ∈ defaultExts ∧
    utf8Decode sampleBadMember.content = none ∧
    process_archive_file ⟨("foo-1.0.0.tbz").data, true,
        [sampleMemberMl] ++ sampleBadMember :: [sampleMemberMl]⟩ defaultExts =
      process_archive_file ⟨("foo-1.0.0.tbz").data, true, [sampleMemberMl]⟩ defaultExts
      ++ ⟨fileKind sampleBadMember.name, sampleBadMember.name,
            pyBytesRepr sampleBadMember.content⟩
        :: process_archive_file ⟨("foo-1.0.0.tbz").data, true, [sampleMemberMl]⟩ defaultExts :=
  ⟨by decide, by decide, by decide, by decide, by decide,
   C8_lossy_decode_continues ("foo-1.0.0.tbz").data [sampleMemberMl] [sampleMemberMl]
     sampleBadMember defaultExts (by decide) (by decide) (by decide) (by decide) (by decide)⟩

/-- While no manifest hit has been recorded, archives whose manifests yield
only `Unknown` fields leave the metadata and the flag unchanged. -/
theorem foldl_mainArchiveStep_noHit (pn : PStr) :
    ∀ (l : List Archive) (st : PkgState), st.flag = false →
    (∀ b ∈ l, anyMetaHit
        (extract_metadata_from_archive b (metaNameHint pn (basenameOf b.path))) = false) →
    (l.foldl (mainArchiveStep pn) st).md = st.md ∧
    (l.foldl (mainArchiveStep pn) st).flag = false := by
  intro l
  induction l with
  | nil => intro st hst _; exact ⟨rfl, hst⟩
  | cons a t ih =>
    intro st hst hall
    have ha := hall a (List.mem_cons_self a t)
    have hstep : mainArchiveStep pn st a =
        { st with files := st.files ++ process_archive_file a defaultExts } := by
      unfold mainArchiveStep
      simp [hst, ha]
    rw [List.foldl_cons, hstep]
    exact ih _ hst (fun b hb => hall b (List.mem_cons_of_mem a hb))

/-- Once the `processed_opam_file_for_metadata` flag is set, no later archive
changes the metadata or clears the flag. -/
theorem foldl_mainArchiveStep_locked (pn : PStr) :
    ∀ (l : List Archive) (st : PkgState), st.flag = true →
    (l.foldl (mainArchiveStep pn) st).md = st.md ∧
    (l.foldl (mainArchiveStep pn) st).flag = true := by
  intro l
  induction l with
  | nil => intro st hst; exact ⟨rfl, hst⟩
  | cons a t ih =>
    intro st hst
    have hstep : mainArchiveStep pn st a =
        { st with files := st.files ++ process_archive_file a defaultExts } := by
      unfold mainArchiveStep
      simp [hst]
    rw [List.foldl_cons, hstep]
    exact ih _ hst

/-- **C7.** For a package version with several archives, the metadata is
adopted from the first archive whose manifest yields at least one
non-`Unknown` field, the flag is set there, and the manifests of all later
archives are ignored: the final metadata equals that first hit's metadata,
whatever the later archives contain. -/
theorem C7_first_manifest_hit_wins (pn : PStr) (l₁ l₂ : List Archive) (a : Archive)
    (h₁ : ∀ b ∈ l₁, anyMetaHit
        (extract_metadata_from_archive b (metaNameHint pn (basenameOf b.path))) = false)
    (ha : anyMetaHit
        (extract_metadata_from_archive a (metaNameHint pn (basenameOf a.path))) = true) :
    ((l₁ ++ a :: l₂).foldl (mainArchiveStep pn) ⟨initMeta, false, []⟩).md =
      extract_metadata_from_archive a (metaNameHint pn (basenameOf a.path)) ∧
    ((l₁ ++ a :: l₂).foldl (mainArchiveStep pn) ⟨initMeta, false, []⟩).flag = true := by
  rw [List.foldl_append]
  obtain ⟨hmd, hflag⟩ :=
    foldl_mainArchiveStep_noHit pn l₁ ⟨initMeta, false, []⟩ rfl h₁
  set st₁ := l₁.foldl (mainArchiveStep pn) ⟨initMeta, false, []⟩ with hst₁
  rw [List.foldl_cons]
  have hstep : mainArchiveStep pn st₁ a =
      { md := extract_metadata_from_archive a (metaNameHint pn (basenameOf a.path)),
        flag := true,
        files := st₁.files ++ process_archive_file a defaultExts } := by
    unfold mainArchiveStep
    simp [hflag, ha]
  rw [hstep]
  exact foldl_mainArchiveStep_locked pn l₂ _ rfl

theorem C7_first_manifest_hit_wins_witness :
    anyMetaHit (extract_metadata_from_archive opamArchMIT
      (metaNameHint ("h2").data (basenameOf opamArchMIT.path))) = true ∧
    (([plainArch] ++ opamArchMIT :: [opamArchGPL]).foldl
        (mainArchiveStep ("h2").data) ⟨initMeta, false, []⟩).md =
      extract_metadata_from_archive opamArchMIT
        (metaNameHint ("h2").data (basenameOf opamArchMIT.path)) :=
  ⟨by decide,
   (C7_first_manifest_hit_wins ("h2").data [plainArch] [opamArchGPL] opamArchMIT
     (by decide) (by decide)).1⟩

/-- **C2.** The package loop emits exactly one record per resolved package
version, and: with no archive files found, the record has an empty file list,
the `Skipped` sentinel in all three metadata fields and the no-archive error
annotation; with archives but no matching files, an empty file list, the
empty-archive error annotation and whatever metadata the fold over the
archives produced; with matching files, the full file list and no error. -/
theorem C2_one_record_per_package :
    (∀ (pkgs : List (PStr × PkgEntry)) (fs : PStr → List Archive),
      (mainRecords pkgs fs).length = pkgs.length) ∧
    (∀ (pn vs : PStr) (dirFiles : List Archive),
      (globArchives dirFiles = [] →
        processPackage pn vs dirFiles =
          ⟨pn, vs, skippedS, skippedS, skippedS, [], some noArchiveMsg⟩) ∧
      (globArchives dirFiles ≠ [] →
        ((globArchives dirFiles).foldl (mainArchiveStep pn) ⟨initMeta, false, []⟩).files = [] →
        processPackage pn vs dirFiles =
          ⟨pn, vs,
            ((globArchives dirFiles).foldl (mainArchiveStep pn) ⟨initMeta, false, []⟩).md.license,
            ((globArchives dirFiles).foldl (mainArchiveStep pn) ⟨initMeta, false, []⟩).md.homepage,
            ((globArchives dirFiles).foldl (mainArchiveStep pn) ⟨initMeta, false, []⟩).md.dev_repo,
            [], some emptyArchiveMsg⟩) ∧
      (globArchives dirFiles ≠ [] →
        ((globArchives dirFiles).foldl (mainArchiveStep pn) ⟨initMeta, false, []⟩).files ≠ [] →
        processPackage pn vs dirFiles =
          ⟨pn, vs,
            ((globArchives dirFiles).foldl (mainArchiveStep pn) ⟨initMeta, false, []⟩).md.license,
            ((globArchives dirFiles).foldl (mainArchiveStep pn) ⟨initMeta, false, []⟩).md.homepage,
            ((globArchives dirFiles).foldl (mainArchiveStep pn) ⟨initMeta, false, []⟩).md.dev_repo,
            ((globArchives dirFiles).foldl (mainArchiveStep pn) ⟨initMeta, false, []⟩).files,
            none⟩)) := by
  constructor
  · intro pkgs fs
    unfold mainRecords
    exact List.length_map pkgs _
  · intro pn vs dirFiles
    refine ⟨?_, ?_, ?_⟩
    · intro hempty
      unfold processPackage
      rw [if_pos hempty]
    · intro hne hfiles
      unfold processPackage
      rw [if_neg hne, if_pos hfiles]
    · intro hne hfiles
      unfold processPackage
      rw [if_neg hne, if_neg hfiles]

theorem C2_one_record_per_package_witness :
    (mainRecords [((("bar").data : PStr), ⟨⟨2, 0, 0, none, none⟩, ("2.0.0").data, ("bar.2.0.0").data⟩)]
        (fun _ => [])).length = 1 ∧
    globArchives ([] : List Archive) = [] ∧
    processPackage ("bar").data ("2.0.0").data [] =
      ⟨("bar").data, ("2.0.0").data, skippedS, skippedS, skippedS, [], some noArchiveMsg⟩ :=
  ⟨C2_one_record_per_package.1 _ _, by decide,
   (C2_one_record_per_package.2 ("bar").data ("2.0.0").data []).1 (by decide)⟩

/-- **C6** (code-bug evidence). The opam filename pattern of
`extract_metadata_from_archive` accepts the bare name `opam`, but a bare
`opam` file has no extension, so the Archive Reader (run with target set
`('opam',)`) assigns it the empty kind and never yields it: an archive whose
only manifest is a bare `opam` file with a `license` line produces all
`Unknown` metadata, while the same content under `<base>.opam` parses. -/
theorem C6_bare_opam_manifest_ignored :
    opamNamePattern ("a").data (basenameOf ("opam").data) ∧
    fileKind ("opam").data = [] ∧
    process_archive_file
      ⟨("a.tbz").data, true, [⟨("opam").data, true, asciiBytes "license: \"MIT\"", true⟩]⟩
      [("opam").data] = [] ∧
    extract_metadata_from_archive
      ⟨("a.tbz").data, true, [⟨("opam").data, true, asciiBytes "license: \"MIT\"", true⟩]⟩
      ("a").data = initMeta ∧
    extract_metadata_from_archive
      ⟨("a.tbz").data, true, [⟨("a.opam").data, true, asciiBytes "license: \"MIT\"", true⟩]⟩
      ("a").data = ⟨("MIT").data, unknownS, unknownS⟩ := by
  decide

/-- **C5** (counterexample). `foo.01` matches the directory pattern, its
version string `01.0.0` is rejected by the semantic-version parser, and the
resolver then retains nothing at all for identifier `foo` — there is no
`0.0.0` fallback entry. -/
theorem C5_counterexample_no_fallback :
    (pkgVersionMatch ("foo.01").data).isSome = true ∧
    ((pkgVersionMatch ("foo.01").data).map PkgGroups.name) = some (("foo").data) ∧
    dirParse ("foo.01").data = none ∧
    get_packages_from_cache [("foo.01").data] = [] := by
  decide

/-- **C5** (amended). A directory whose assembled version string fails
semantic-version parsing is skipped outright: deleting it from the cache
listing leaves the resolver's result unchanged, so it never wins over a
parsed version and is not retained as a fallback either. -/
theorem C5_amended_unparseable_skipped (l₁ l₂ : List PStr) (d : PStr) (g : PkgGroups)
    (hm : pkgVersionMatch d = some g)
    (hp : semverParse (versionStrForParse g) = none) :
    get_packages_from_cache (l₁ ++ d :: l₂) = get_packages_from_cache (l₁ ++ l₂) := by
  unfold get_packages_from_cache
  rw [List.foldl_append, List.foldl_append, List.foldl_cons]
  have hskip : scanDir (l₁.foldl scanDir []) d = l₁.foldl scanDir [] := by
    simp only [scanDir, hm]
    by_cases hn : g.name = []
    · simp [hn]
    · simp [hn, hp]
  rw [hskip]

theorem C5_amended_unparseable_skipped_witness :
    pkgVersionMatch ("foo.01").data =
      some ⟨("foo").data, false, ("01").data, none, none, none⟩ ∧
    semverParse (versionStrForParse ⟨("foo").data, false, ("01").data, none, none, none⟩) =
      none ∧
    get_packages_from_cache ([("bar.1.0.0").data] ++ ("foo.01").data :: []) =
      get_packages_from_cache ([("bar.1.0.0").data] ++ []) :=
  ⟨by decide, by decide,
   C5_amended_unparseable_skipped [("bar.1.0.0").data] [] ("foo.01").data
     ⟨("foo").data, false, ("01").data, none, none, none⟩ (by decide) (by decide)⟩

/-- Shard `i` of the contiguous sharding is the slice of the rows between the
boundary points `q * i + min i r`. -/
theorem datasetShard_eq_slice (rows : List Record) (nb i : Nat) :
    datasetShard rows nb i =
      ((rows.drop (rows.length / nb * i + min i (rows.length % nb))).take
        (rows.length / nb + (if i < rows.length % nb then 1 else 0))) := by
  unfold datasetShard
  have harith : ∀ a b : Nat, a + b - a = b := fun a b => by omega
  simp only []
  rw [Nat.add_assoc, harith]

/-- The contiguous shard boundaries advance by exactly the shard size. -/
theorem shardBoundary_succ (q r i : Nat) :
    q * (i + 1) + min (i + 1) r =
      (q * i + min i r) + (q + (if i < r then 1 else 0)) := by
  by_cases h : i < r
  · rw [if_pos h]
    have h1 : min i r = i := Nat.min_eq_left (Nat.le_of_lt h)
    have h2 : min (i + 1) r = i + 1 := Nat.min_eq_left h
    rw [h1, h2]
    ring
  · rw [if_neg h]
    have h1 : min i r = r := Nat.min_eq_right (Nat.le_of_not_lt h)
    have h2 : min (i + 1) r = r := Nat.min_eq_right (by omega)
    rw [h1, h2]
    ring

/-- Concatenating the first `m` contiguous shards gives the first
`q * m + min m r` rows. -/
theorem flatten_shards_take (rows : List Record) (nb : Nat) :
    ∀ m : Nat, ((List.range m).map (datasetShard rows nb)).flatten =
      rows.take (rows.length / nb * m + min m (rows.length % nb)) := by
  intro m
  induction m with
  | zero => simp
  | succ m ih =>
    rw [List.range_succ, List.map_append, List.flatten_append, ih]
    simp only [List.map_cons, List.map_nil, List.flatten_cons, List.flatten_nil,
      List.append_nil]
    rw [datasetShard_eq_slice, shardBoundary_succ,
      List.take_add rows (rows.length / nb * m + min m (rows.length % nb))
        (rows.length / nb + if m < rows.length % nb then 1 else 0)]

/-- Concatenating all `nb` contiguous shards returns the row list itself. -/
theorem flatten_shards (rows : List Record) (nb : Nat) (hnb : nb ≠ 0) :
    ((List.range nb).map (datasetShard rows nb)).flatten = rows := by
  rw [flatten_shards_take rows nb nb]
  have hmod : rows.length % nb < nb := Nat.mod_lt _ (Nat.pos_of_ne_zero hnb)
  have hmin : min nb (rows.length % nb) = rows.length % nb := Nat.min_eq_right (Nat.le_of_lt hmod)
  rw [hmin]
  have hdm : nb * (rows.length / nb) + rows.length % nb = rows.length :=
    Nat.div_add_mod rows.length nb
  have : rows.length / nb * nb + rows.length % nb = rows.length := by
    rw [Nat.mul_comm]; exact hdm
  rw [this, List.take_length]

/-- The batch count is positive for a nonempty dataset and positive batch
size. -/
theorem numBatches_pos (n k : Nat) (hk : 1 ≤ k) (hn : n ≠ 0) :
    numBatches n k ≠ 0 := by
  unfold numBatches
  have : k ≤ n + k - 1 := by omega
  have := Nat.div_pos this (by omega)
  omega

/-- Concatenating the rows of all written batch files, in file order,
returns exactly the original record list. -/
theorem saveParquetBatches_flatten (outputDir : PStr) (rows : List Record) (k : Nat)
    (hk : 1 ≤ k) :
    ((saveParquetBatches outputDir rows k).map Prod.snd).flatten = rows := by
  unfold saveParquetBatches
  rw [List.map_map]
  have hcomp : (Prod.snd ∘ fun i =>
      (batchFileName outputDir i, datasetShard rows (numBatches rows.length k) i)) =
      datasetShard rows (numBatches rows.length k) := rfl
  rw [hcomp]
  by_cases hn : rows.length = 0
  · have hrows : rows = [] := List.eq_nil_of_length_eq_zero hn
    subst hrows
    have : numBatches 0 k = 0 := by
      unfold numBatches
      exact Nat.div_eq_of_lt (by omega)
    simp [this]
  · exact flatten_shards rows _ (numBatches_pos rows.length k hk hn)

/-- **C3.** Writing any record list through the batched Parquet save with any
chunk size `K ≥ 1` yields chunks that concatenate, in order, to exactly the
original records: the final dataset has exactly the original rows, values and
order unchanged across chunks. -/
theorem C3_chunked_write_roundtrip (outputDir : PStr) (rows : List Record) (k : Nat)
    (hk : 1 ≤ k) :
    ((saveParquetBatches outputDir rows k).map Prod.snd).flatten = rows :=
  saveParquetBatches_flatten outputDir rows k hk

theorem C3_chunked_write_roundtrip_witness :
    1 ≤ 2 ∧
    ((saveParquetBatches ("out").data
        [⟨("a").data, ("1.0.0").data, unknownS, unknownS, unknownS, [], none⟩,
         ⟨("b").data, ("2.0.0").data, unknownS, unknownS, unknownS, [], none⟩,
         ⟨("c").data, ("3.0.0").data, unknownS, unknownS, unknownS, [], none⟩] 2).map
       Prod.snd).flatten =
      [⟨("a").data, ("1.0.0").data, unknownS, unknownS, unknownS, [], none⟩,
       ⟨("b").data, ("2.0.0").data, unknownS, unknownS, unknownS, [], none⟩,
       ⟨("c").data, ("3.0.0").data, unknownS, unknownS, unknownS, [], none⟩] :=
  ⟨by decide,
   C3_chunked_write_roundtrip ("out").data
     [⟨("a").data, ("1.0.0").data, unknownS, unknownS, unknownS, [], none⟩,
      ⟨("b").data, ("2.0.0").data, unknownS, unknownS, unknownS, [], none⟩,
      ⟨("c").data, ("3.0.0").data, unknownS, unknownS, unknownS, [], none⟩] 2 (by decide)⟩

/-- The batch count times the batch size covers the dataset. -/
theorem numBatches_mul_ge (n k : Nat) (hk : 1 ≤ k) : n ≤ numBatches n k * k := by
  unfold numBatches
  by_cases hn : n = 0
  · simp [hn]
  · have h1 : n + k - 1 = (n - 1) + k := by omega
    rw [h1, Nat.add_div_right _ (by omega)]
    have h2 := Nat.div_add_mod (n - 1) k
    have h3 : (n - 1) % k < k := Nat.mod_lt _ (by omega)
    have h4 : ((n - 1) / k + 1) * k = k * ((n - 1) / k) + k := by ring
    omega

/-- Every contiguous shard of the batched save holds at most `k` rows. -/
theorem datasetShard_length_le (rows : List Record) (k : Nat) (hk : 1 ≤ k) (i : Nat) :
    (datasetShard rows (numBatches rows.length k) i).length ≤ k := by
  have hle : rows.length ≤ numBatches rows.length k * k := numBatches_mul_ge rows.length k hk
  unfold datasetShard
  simp only []
  refine (List.length_take_le _ _).trans ?_
  by_cases hnb : numBatches rows.length k = 0
  · rw [hnb]
    simp only [Nat.div_zero, Nat.mod_zero]
    by_cases hi : i < rows.length
    · rw [if_pos hi]; omega
    · rw [if_neg hi]; omega
  · have hdm := Nat.div_add_mod rows.length (numBatches rows.length k)
    by_cases hi : i < rows.length % numBatches rows.length k
    · rw [if_pos hi]
      by_contra hq
      have hkq : k ≤ rows.length / numBatches rows.length k := by omega
      have hmul := Nat.mul_le_mul_left (numBatches rows.length k) hkq
      omega
    · rw [if_neg hi]
      by_contra hq
      have hkq : k + 1 ≤ rows.length / numBatches rows.length k := by omega
      have hmul := Nat.mul_le_mul_left (numBatches rows.length k) hkq
      have hdist : numBatches rows.length k * (k + 1) =
          numBatches rows.length k * k + numBatches rows.length k := by ring
      have hnb1 : 1 ≤ numBatches rows.length k := Nat.pos_of_ne_zero hnb
      omega

/-- **C9** (counterexample). With three records and chunk size 1, the writer
emits exactly three Parquet batch files directly in the output directory,
each the final artifact for its shard; no file holds the whole row set, no
temporary segment exists, and no concatenation step follows. -/
theorem C9_counterexample_no_temp_concat :
    saveParquetBatches ("out").data [recA, recB, recC] 1 =
      [(("out/opam_packages_batch_0.parquet").data, [recA]),
       (("out/opam_packages_batch_1.parquet").data, [recB]),
       (("out/opam_packages_batch_2.parquet").data, [recC])] := by
  decide

/-- **C9** (amended). The batched save materializes the whole record list in
one in-memory dataset and writes `⌈N / K⌉` contiguous shards, each of at most
`K` rows, directly to the output directory as final files named
`opam_packages_batch_<i>.parquet`; the shards together contain exactly the
`N` original rows in order.  There is no temporary-segment stage and no
concatenation into a single output. -/
theorem C9_amended_direct_shards (outputDir : PStr) (rows : List Record) (k : Nat)
    (hk : 1 ≤ k) :
    (saveParquetBatches outputDir rows k).length = numBatches rows.length k ∧
    (saveParquetBatches outputDir rows k).map Prod.fst =
      (List.range (numBatches rows.length k)).map (batchFileName outputDir) ∧
    (∀ b ∈ saveParquetBatches outputDir rows k, b.2.length ≤ k) ∧
    ((saveParquetBatches outputDir rows k).map Prod.snd).flatten = rows := by
  refine ⟨?_, ?_, ?_, saveParquetBatches_flatten outputDir rows k hk⟩
  · unfold saveParquetBatches
    rw [List.length_map, List.length_range]
  · unfold saveParquetBatches
    rw [List.map_map]
    rfl
  · intro b hb
    unfold saveParquetBatches at hb
    rw [List.mem_map] at hb
    obtain ⟨i, -, rfl⟩ := hb
    exact datasetShard_length_le rows k hk i

theorem C9_amended_direct_shards_witness :
    (saveParquetBatches ("out").data [recA, recB, recC] 2).length =
      numBatches ([recA, recB, recC] : List Record).length 2 ∧
    ((saveParquetBatches ("out").data [recA, recB, recC] 2).map Prod.snd).flatten =
      [recA, recB, recC] :=
  ⟨(C9_amended_direct_shards ("out").data [recA, recB, recC] 2 (by decide)).1,
   (C9_amended_direct_shards ("out").data [recA, recB, recC] 2 (by decide)).2.2.2⟩

/-- A wholly satisfied prefix passes through `takeWhile`. -/
theorem takeWhile_append_all {P : Char → Bool} :
    ∀ (l r : PStr), l.all P = true → (l ++ r).takeWhile P = l ++ r.takeWhile P := by
  intro l r hl
  induction l with
  | nil => rfl
  | cons a t ih =>
    simp only [List.all_cons, Bool.and_eq_true] at hl
    simp only [List.cons_append, List.takeWhile_cons, hl.1, if_true, ih hl.2]

/-- A wholly satisfied prefix is consumed by `dropWhile`. -/
theorem dropWhile_append_all {P : Char → Bool} :
    ∀ (l r : PStr), l.all P = true → (l ++ r).dropWhile P = r.dropWhile P := by
  intro l r hl
  induction l with
  | nil => rfl
  | cons a t ih =>
    simp only [List.all_cons, Bool.and_eq_true] at hl
    simp only [List.cons_append, List.dropWhile_cons, hl.1, if_true, ih hl.2]

theorem takeWhile_all {P : Char → Bool} :
    ∀ (l : PStr), l.all P = true → l.takeWhile P = l ∧ l.dropWhile P = [] := by
  intro l hl
  induction l with
  | nil => exact ⟨rfl, rfl⟩
  | cons a t ih =>
    simp only [List.all_cons, Bool.and_eq_true] at hl
    obtain ⟨h1, h2⟩ := ih hl.2
    refine ⟨?_, ?_⟩ <;>
      simp only [List.takeWhile_cons, List.dropWhile_cons, hl.1, if_true, h1, h2]

theorem digit_ne_dot {c : Char} (h : isAsciiDigit c = true) : c ≠ '.' := by
  intro hc; subst hc; exact absurd h (by decide)

theorem digit_ne_v {c : Char} (h : isAsciiDigit c = true) : c ≠ 'v' := by
  intro hc; subst hc; exact absurd h (by decide)

theorem digit_nameClass {c : Char} (h : isAsciiDigit c = true) : nameClass c = true := by
  simp [nameClass, h]

theorem dropWhile_of_takeWhile_nil {P : Char → Bool} :
    ∀ (l : PStr), l.takeWhile P = [] → l.dropWhile P = l := by
  intro l hl
  cases l with
  | nil => rfl
  | cons a t =>
    by_cases hP : P a
    · rw [List.takeWhile_cons, if_pos hP] at hl
      exact absurd hl (by simp)
    · rw [List.dropWhile_cons, if_neg hP]

/-- A growing run of name-class characters that contains no dot is absorbed
into the accumulator without any split attempt. -/
theorem pkgMatchAux_name_extend :
    ∀ (n acc rest : PStr), (∀ c ∈ n, nameClass c = true ∧ c ≠ '.') →
      pkgMatchAux acc (n ++ rest) = pkgMatchAux (n.reverse ++ acc) rest := by
  intro n
  induction n with
  | nil => intro acc rest _; rfl
  | cons c t ih =>
    intro acc rest h
    have hc := h c (List.mem_cons_self c t)
    have hcons : pkgMatchAux acc ((c :: t) ++ rest) = pkgMatchAux (c :: acc) (t ++ rest) := by
      simp only [List.cons_append, pkgMatchAux]
      rw [if_neg (fun hand => hc.2 hand.1), if_pos hc.1]
      rfl
    rw [hcons, ih (c :: acc) rest (fun d hd => h d (List.mem_cons_of_mem c hd))]
    have harr : (c :: t).reverse ++ acc = t.reverse ++ (c :: acc) := by
      simp [List.reverse_cons, List.append_assoc]
    rw [harr]

/-- At a dot with a nonempty accumulated name, a successful version-tail
match ends the scan with the accumulated name as the captured identifier. -/
theorem pkgMatchAux_split (acc t : PStr) (g : VGroups) (hacc : acc ≠ [])
    (hg : matchVersionTail t = some g) :
    pkgMatchAux acc ('.' :: t) =
      some ⟨acc.reverse, g.vPrefix, g.major, g.minor, g.patch, g.suffix⟩ := by
  simp [pkgMatchAux, hacc, hg]

theorem matchDotNum_of (X A B : PStr) (ht : X.takeWhile isAsciiDigit = A)
    (hd : X.dropWhile isAsciiDigit = B) (hA : A ≠ []) :
    matchDotNum ('.' :: X) = some (A, B) := by
  simp only [matchDotNum, ht, hd]
  rw [if_neg hA]

theorem matchPatchSuffix_dot (p : PStr) (hp : p ≠ []) (hpd : p.all isAsciiDigit = true) :
    matchPatchSuffix ('.' :: p) = some (some p, none) := by
  obtain ⟨ht, hd⟩ := takeWhile_all p hpd
  simp only [matchPatchSuffix, matchDotNum_of p p [] ht hd hp, matchSuffixEnd,
    Option.map_some', Option.some_orElse]

theorem matchMinorRest_minor_only (p : PStr) (hp : p ≠ []) (hpd : p.all isAsciiDigit = true) :
    matchMinorRest ('.' :: p) = some (some p, none, none) := by
  obtain ⟨ht, hd⟩ := takeWhile_all p hpd
  have hps : matchPatchSuffix [] = some (none, none) := rfl
  simp only [matchMinorRest, matchDotNum_of p p [] ht hd hp, hps,
    Option.map_some', Option.some_orElse]

theorem matchMinorRest_minor_patch (m p : PStr) (hm : m ≠ [])
    (hmd : m.all isAsciiDigit = true) (hp : p ≠ []) (hpd : p.all isAsciiDigit = true) :
    matchMinorRest ('.' :: (m ++ '.' :: p)) = some (some m, some p, none) := by
  have hdot : isAsciiDigit '.' = false := by decide
  have ht : (m ++ '.' :: p).takeWhile isAsciiDigit = m := by
    rw [takeWhile_append_all m _ hmd]
    simp [List.takeWhile_cons, hdot]
  have hd : (m ++ '.' :: p).dropWhile isAsciiDigit = '.' :: p := by
    rw [dropWhile_append_all m _ hmd]
    simp [List.dropWhile_cons, hdot]
  simp only [matchMinorRest, matchDotNum_of _ m ('.' :: p) ht hd hm,
    matchPatchSuffix_dot p hp hpd, Option.map_some', Option.some_orElse]

/-- The version tail starting with a digit run: the greedy major takes the
whole run and the rest is handed to the minor/patch/suffix groups. -/
theorem matchVersionTail_of (M X : PStr) (v : Option PStr × Option PStr × Option PStr)
    (hM : M ≠ []) (hMd : M.all isAsciiDigit = true)
    (hX : X.takeWhile isAsciiDigit = [])
    (hmr : matchMinorRest X = some v) :
    matchVersionTail (M ++ X) = some ⟨false, M, v.1, v.2.1, v.2.2⟩ := by
  have ht : (M ++ X).takeWhile isAsciiDigit = M := by
    rw [takeWhile_append_all M X hMd, hX, List.append_nil]
  have hd : (M ++ X).dropWhile isAsciiDigit = X := by
    rw [dropWhile_append_all M X hMd, dropWhile_of_takeWhile_nil X hX]
  obtain ⟨d, M₂, rfl⟩ := List.exists_cons_of_ne_nil hM
  have hdd : isAsciiDigit d = true := by
    simp only [List.all_cons, Bool.and_eq_true] at hMd
    exact hMd.1
  rw [List.cons_append] at ht hd ⊢
  simp only [matchVersionTail]
  rw [if_neg (digit_ne_v hdd), ht, hd]
  rw [if_neg hM, hmr]
  rfl

/-- **C4** (counterexample). With identical version digits `1.2.3`, the
directory name with separator `.` parses to identifier `foo`, while the
variants with separators `_` and `-` parse to identifiers `foo_1` and
`foo-1`: only `.` acts as the name/version separator, so the recovered
identifier is not independent of the separator. -/
theorem C4_counterexample_separators :
    (pkgVersionMatch ("foo.1.2.3").data).map PkgGroups.name = some (("foo").data) ∧
    (pkgVersionMatch ("foo_1.2.3").data).map PkgGroups.name = some (("foo_1").data) ∧
    (pkgVersionMatch ("foo-1.2.3").data).map PkgGroups.name = some (("foo-1").data) ∧
    (("foo_1").data ≠ ("foo").data) ∧ (("foo-1").data ≠ ("foo").data) := by
  decide

/-- **C4** (amended). The Version Parser treats only `.` as the separator
between name and version.  For a dot-free nonempty name and version digits
`M.m.p`: with separator `.` the recovered identifier is exactly the name;
with separator `_` or `-` the directory name still matches, but the
separator and the major number are absorbed into the identifier, which
becomes `<name><sep><M>` — the identifiers across the three separators are
not the same. -/
theorem C4_amended_only_dot_separates (n M m p : PStr)
    (hn : n ≠ []) (hnc : ∀ c ∈ n, nameClass c = true ∧ c ≠ '.')
    (hM : M ≠ []) (hMd : M.all isAsciiDigit = true)
    (hm : m ≠ []) (hmd : m.all isAsciiDigit = true)
    (hp : p ≠ []) (hpd : p.all isAsciiDigit = true) :
    (pkgVersionMatch (n ++ '.' :: (M ++ '.' :: (m ++ '.' :: p)))).map PkgGroups.name =
      some n ∧
    (pkgVersionMatch (n ++ '_' :: (M ++ '.' :: (m ++ '.' :: p)))).map PkgGroups.name =
      some (n ++ '_' :: M) ∧
    (pkgVersionMatch (n ++ '-' :: (M ++ '.' :: (m ++ '.' :: p)))).map PkgGroups.name =
      some (n ++ '-' :: M) := by
  have hdotX : ('.' :: (m ++ '.' :: p)).takeWhile isAsciiDigit = [] := by
    rw [List.takeWhile_cons, if_neg (by decide)]
  have hvt3 : matchVersionTail (M ++ '.' :: (m ++ '.' :: p)) =
      some ⟨false, M, some m, some p, none⟩ :=
    matchVersionTail_of M ('.' :: (m ++ '.' :: p)) (some m, some p, none) hM hMd hdotX
      (matchMinorRest_minor_patch m p hm hmd hp hpd)
  have hvt2 : matchVersionTail (m ++ '.' :: p) = some ⟨false, m, some p, none, none⟩ := by
    have hdotp : ('.' :: p).takeWhile isAsciiDigit = [] := by
      rw [List.takeWhile_cons, if_neg (by decide)]
    exact matchVersionTail_of m ('.' :: p) (some p, none, none) hm hmd hdotp
      (matchMinorRest_minor_only p hp hpd)
  refine ⟨?_, ?_, ?_⟩
  · unfold pkgVersionMatch
    rw [pkgMatchAux_name_extend n [] _ hnc, List.append_nil,
      pkgMatchAux_split n.reverse _ _ (by simp [hn]) hvt3]
    simp
  · have hsep : ∀ c ∈ (n ++ '_' :: M), nameClass c = true ∧ c ≠ '.' := by
      intro c hc
      rw [List.mem_append, List.mem_cons] at hc
      rcases hc with hc | hc | hc
      · exact hnc c hc
      · subst hc; exact ⟨by decide, by decide⟩
      · have hd := List.all_eq_true.mp hMd c hc
        exact ⟨digit_nameClass hd, digit_ne_dot hd⟩
    have harr : n ++ '_' :: (M ++ '.' :: (m ++ '.' :: p)) =
        (n ++ '_' :: M) ++ '.' :: (m ++ '.' :: p) := by
      simp [List.append_assoc]
    rw [harr]
    unfold pkgVersionMatch
    rw [pkgMatchAux_name_extend (n ++ '_' :: M) [] _ hsep, List.append_nil,
      pkgMatchAux_split (n ++ '_' :: M).reverse _ _ (by simp) hvt2]
    simp
  · have hsep : ∀ c ∈ (n ++ '-' :: M), nameClass c = true ∧ c ≠ '.' := by
      intro c hc
      rw [List.mem_append, List.mem_cons] at hc
      rcases hc with hc | hc | hc
      · exact hnc c hc
      · subst hc; exact ⟨by decide, by decide⟩
      · have hd := List.all_eq_true.mp hMd c hc
        exact ⟨digit_nameClass hd, digit_ne_dot hd⟩
    have harr : n ++ '-' :: (M ++ '.' :: (m ++ '.' :: p)) =
        (n ++ '-' :: M) ++ '.' :: (m ++ '.' :: p) := by
      simp [List.append_assoc]
    rw [harr]
    unfold pkgVersionMatch
    rw [pkgMatchAux_name_extend (n ++ '-' :: M) [] _ hsep, List.append_nil,
      pkgMatchAux_split (n ++ '-' :: M).reverse _ _ (by simp) hvt2]
    simp

theorem C4_amended_only_dot_separates_witness :
    (("pkg").data ≠ ([] : PStr)) ∧
    ((pkgVersionMatch (("pkg").data ++ '.' :: (("7").data ++ '.' :: (("8").data ++ '.' ::
        ("9").data)))).map PkgGroups.name = some (("pkg").data) ∧
     (pkgVersionMatch (("pkg").data ++ '_' :: (("7").data ++ '.' :: (("8").data ++ '.' ::
        ("9").data)))).map PkgGroups.name = some (("pkg").data ++ '_' :: ("7").data) ∧
     (pkgVersionMatch (("pkg").data ++ '-' :: (("7").data ++ '.' :: (("8").data ++ '.' ::
        ("9").data)))).map PkgGroups.name = some (("pkg").data ++ '-' :: ("7").data)) :=
  ⟨by decide,
   C4_amended_only_dot_separates ("pkg").data ("7").data ("8").data ("9").data
     (by decide) (by decide) (by decide) (by decide) (by decide) (by decide)
     (by decide) (by decide)⟩

/-! ### Order-theoretic facts about the semantic-version comparison,
used to settle the resolver claim -/

theorem nCmp_eq_iff (a b : Nat) : nCmp a b = .eq ↔ a = b := by
  unfold nCmp
  by_cases h1 : a < b
  · simp only [h1, if_true]
    constructor
    · intro h; cases h
    · intro h; omega
  · by_cases h2 : a = b <;> simp [h1, h2]

theorem nCmp_lt_iff (a b : Nat) : nCmp a b = .lt ↔ a < b := by
  unfold nCmp
  by_cases h1 : a < b
  · simp [h1]
  · by_cases h2 : a = b <;> simp [h1, h2]

theorem nCmp_gt_iff (a b : Nat) : nCmp a b = .gt ↔ b < a := by
  unfold nCmp
  by_cases h1 : a < b
  · simp only [h1, if_true]
    constructor
    · intro h; cases h
    · intro h; omega
  · by_cases h2 : a = b <;> simp [h1, h2] <;> omega

theorem nCmp_refl (a : Nat) : nCmp a a = .eq := (nCmp_eq_iff a a).mpr rfl

theorem nCmp_swap (a b : Nat) : nCmp a b = (nCmp b a).swap := by
  rcases h : nCmp b a with h1 | h1 | h1
  · rw [nCmp_lt_iff] at h
    show nCmp a b = .gt
    rw [nCmp_gt_iff]; exact h
  · rw [nCmp_eq_iff] at h
    show nCmp a b = .eq
    rw [nCmp_eq_iff]; omega
  · rw [nCmp_gt_iff] at h
    show nCmp a b = .lt
    rw [nCmp_lt_iff]; exact h

theorem char_toNat_inj {a b : Char} (h : a.toNat = b.toNat) : a = b := by
  apply Char.eq_of_val_eq
  exact UInt32.toNat.inj h

theorem charCmp_eq_iff (a b : Char) : charCmp a b = .eq ↔ a = b := by
  unfold charCmp
  rw [nCmp_eq_iff]
  exact ⟨char_toNat_inj, fun h => by rw [h]⟩

theorem charCmp_swap (a b : Char) : charCmp a b = (charCmp b a).swap := nCmp_swap _ _

theorem charCmp_lt_trans {a b c : Char} (h1 : charCmp a b = .lt) (h2 : charCmp b c = .lt) :
    charCmp a c = .lt := by
  unfold charCmp at *
  rw [nCmp_lt_iff] at *
  omega

theorem lexCmp_eq_iff {α : Type} (c : α → α → Ordering)
    (hc : ∀ x y, c x y = .eq ↔ x = y) :
    ∀ l m : List α, lexCmp c l m = .eq ↔ l = m := by
  intro l
  induction l with
  | nil => intro m; cases m <;> simp [lexCmp]
  | cons a t ih =>
    intro m
    cases m with
    | nil => simp [lexCmp]
    | cons b s =>
      simp only [lexCmp]
      rcases h : c a b with h1 | h1 | h1
      · simp only []
        constructor
        · intro hh; cases hh
        · intro hh
          rw [List.cons.injEq] at hh
          rw [(hc a b).mpr hh.1] at h
          cases h
      · rw [(hc a b).mp h]
        rw [ih s]
        simp
      · simp only []
        constructor
        · intro hh; cases hh
        · intro hh
          rw [List.cons.injEq] at hh
          rw [(hc a b).mpr hh.1] at h
          cases h

theorem lexCmp_swap {α : Type} (c : α → α → Ordering)
    (hswap : ∀ x y, c x y = (c y x).swap) :
    ∀ l m : List α, lexCmp c l m = (lexCmp c m l).swap := by
  intro l
  induction l with
  | nil => intro m; cases m <;> rfl
  | cons a t ih =>
    intro m
    cases m with
    | nil => rfl
    | cons b s =>
      simp only [lexCmp]
      rw [hswap a b]
      rcases c b a with _ | _ | _
      · rfl
      · exact ih s
      · rfl

theorem ordThen_eq_lt (x y : Ordering) :
    x.then y = .lt ↔ x = .lt ∨ (x = .eq ∧ y = .lt) := by
  cases x <;> simp [Ordering.then]

theorem ordThen_eq_eq (x y : Ordering) : x.then y = .eq ↔ x = .eq ∧ y = .eq := by
  cases x <;> simp [Ordering.then]

theorem ordThen_eq_gt (x y : Ordering) :
    x.then y = .gt ↔ x = .gt ∨ (x = .eq ∧ y = .gt) := by
  cases x <;> simp [Ordering.then]

theorem ordThen_ne_eq {x : Ordering} (y : Ordering) (h : x ≠ .eq) : x.then y = x := by
  cases x with
  | lt => rfl
  | eq => exact absurd rfl h
  | gt => rfl

theorem lexCmp_cons {α : Type} (c : α → α → Ordering) (a b : α) (as bs : List α) :
    lexCmp c (a :: as) (b :: bs) = (c a b).then (lexCmp c as bs) := by
  simp only [lexCmp]
  cases c a b <;> rfl

theorem zipCmp_cons {α : Type} (c : α → α → Ordering) (a b : α) (as bs : List α) :
    zipCmp c (a :: as) (b :: bs) = (c a b).then (zipCmp c as bs) := by
  simp only [zipCmp]
  cases c a b <;> rfl

theorem lexCmp_lt_trans {α : Type} (c : α → α → Ordering)
    (hc : ∀ x y, c x y = .eq ↔ x = y)
    (htr : ∀ {x y z}, c x y = .lt → c y z = .lt → c x z = .lt) :
    ∀ l m r : List α, lexCmp c l m = .lt → lexCmp c m r = .lt → lexCmp c l r = .lt := by
  intro l
  induction l with
  | nil =>
    intro m r h1 h2
    cases m with
    | nil => exact h2
    | cons b s =>
      cases r with
      | nil => cases h2
      | cons d u => rfl
  | cons a t ih =>
    intro m r h1 h2
    cases m with
    | nil => cases h1
    | cons b s =>
      cases r with
      | nil => cases h2
      | cons d u =>
        rw [lexCmp_cons, ordThen_eq_lt] at h1 h2 ⊢
        rcases h1 with h1 | ⟨h1e, h1r⟩ <;> rcases h2 with h2 | ⟨h2e, h2r⟩
        · exact Or.inl (htr h1 h2)
        · obtain rfl := (hc b d).mp h2e
          exact Or.inl h1
        · obtain rfl := (hc a b).mp h1e
          exact Or.inl h2
        · obtain rfl := (hc a b).mp h1e
          obtain rfl := (hc a d).mp h2e
          exact Or.inr ⟨(hc a a).mpr rfl, ih s u h1r h2r⟩

/-- A proper prefix compares strictly below, provided the element comparison
is reflexive. -/
theorem lexCmp_prefix_lt {α : Type} (c : α → α → Ordering)
    (hrefl : ∀ x, c x x = .eq) :
    ∀ (l : List α) (b : α) (bs : List α), lexCmp c l (l ++ b :: bs) = .lt := by
  intro l
  induction l with
  | nil => intro b bs; rfl
  | cons a t ih =>
    intro b bs
    rw [List.cons_append, lexCmp_cons, hrefl a]
    exact ih b bs

theorem listCharCmp_eq_iff (a b : PStr) : listCharCmp a b = .eq ↔ a = b :=
  lexCmp_eq_iff charCmp charCmp_eq_iff a b

theorem listCharCmp_swap (a b : PStr) : listCharCmp a b = (listCharCmp b a).swap :=
  lexCmp_swap charCmp charCmp_swap a b

theorem listCharCmp_lt_trans {a b c : PStr} (h1 : listCharCmp a b = .lt)
    (h2 : listCharCmp b c = .lt) : listCharCmp a c = .lt :=
  lexCmp_lt_trans charCmp charCmp_eq_iff (fun hx hy => charCmp_lt_trans hx hy) a b c h1 h2

theorem partCmp_eq_iff (x y : Sum Nat PStr) : partCmp x y = .eq ↔ x = y := by
  rcases x with n | s <;> rcases y with m | t <;> simp only [partCmp]
  · rw [nCmp_eq_iff]; simp
  · constructor
    · intro h; cases h
    · intro h; cases h
  · constructor
    · intro h; cases h
    · intro h; cases h
  · rw [listCharCmp_eq_iff]; simp

theorem partCmp_refl (x : Sum Nat PStr) : partCmp x x = .eq := (partCmp_eq_iff x x).mpr rfl

theorem partCmp_swap (x y : Sum Nat PStr) : partCmp x y = (partCmp y x).swap := by
  rcases x with n | s <;> rcases y with m | t <;> simp only [partCmp]
  · exact nCmp_swap n m
  · rfl
  · rfl
  · exact listCharCmp_swap s t

theorem partCmp_lt_trans {x y z : Sum Nat PStr} (h1 : partCmp x y = .lt)
    (h2 : partCmp y z = .lt) : partCmp x z = .lt := by
  rcases x with n | s <;> rcases y with m | t <;> rcases z with k | u <;>
    simp only [partCmp] at h1 h2 ⊢
  · rw [nCmp_lt_iff] at h1 h2 ⊢; omega
  · cases h2
  · cases h1
  · cases h1
  · cases h2
  · exact listCharCmp_lt_trans h1 h2

theorem zipCmp_ne_eq_lexCmp {α : Type} (c : α → α → Ordering) :
    ∀ l m : List α, zipCmp c l m ≠ .eq → lexCmp c l m = zipCmp c l m := by
  intro l
  induction l with
  | nil => intro m h; cases m <;> simp [zipCmp] at h
  | cons a t ih =>
    intro m h
    cases m with
    | nil => simp [zipCmp] at h
    | cons b s =>
      rw [zipCmp_cons] at h ⊢
      rw [lexCmp_cons]
      by_cases he : c a b = .eq
      · rw [he] at h ⊢
        have hz : zipCmp c t s ≠ .eq := by
          intro hzz
          exact h (by rw [hzz]; rfl)
        rw [ih s hz]
      · rw [ordThen_ne_eq _ he, ordThen_ne_eq _ he]

theorem zipCmp_eq_prefix {α : Type} (c : α → α → Ordering)
    (hc : ∀ x y, c x y = .eq ↔ x = y) :
    ∀ l m : List α, zipCmp c l m = .eq → l <+: m ∨ m <+: l := by
  intro l
  induction l with
  | nil => intro m _; exact Or.inl List.nil_prefix
  | cons a t ih =>
    intro m h
    cases m with
    | nil => exact Or.inr List.nil_prefix
    | cons b s =>
      rw [zipCmp_cons, ordThen_eq_eq] at h
      obtain rfl := (hc a b).mp h.1
      rcases ih s h.2 with hp | hp
      · exact Or.inl (List.cons_prefix_cons.mpr ⟨rfl, hp⟩)
      · exact Or.inr (List.cons_prefix_cons.mpr ⟨rfl, hp⟩)

theorem zipCmp_refl {α : Type} (c : α → α → Ordering) (hrefl : ∀ x, c x x = .eq) :
    ∀ l : List α, zipCmp c l l = .eq := by
  intro l
  induction l with
  | nil => rfl
  | cons a t ih => simp only [zipCmp, hrefl a]; exact ih

/-- Rejoining the dot-separated parts with dots. -/
def joinDots : List PStr → PStr
  | [] => []
  | [x] => x
  | x :: y :: xs => x ++ '.' :: joinDots (y :: xs)

theorem splitDotsAux_ne_nil : ∀ (s acc : PStr), splitDotsAux acc s ≠ [] := by
  intro s
  induction s with
  | nil => intro acc h; cases h
  | cons c t ih =>
    intro acc
    simp only [splitDotsAux]
    by_cases hc : c = '.'
    · rw [if_pos hc]; simp
    · rw [if_neg hc]; exact ih (c :: acc)

theorem joinDots_cons_ne (x : PStr) (r : List PStr) (hr : r ≠ []) :
    joinDots (x :: r) = x ++ '.' :: joinDots r := by
  cases r with
  | nil => exact absurd rfl hr
  | cons y ys => rfl

theorem joinDots_splitDotsAux : ∀ (s acc : PStr),
    joinDots (splitDotsAux acc s) = acc.reverse ++ s := by
  intro s
  induction s with
  | nil => intro acc; simp [splitDotsAux, joinDots]
  | cons c t ih =>
    intro acc
    simp only [splitDotsAux]
    by_cases hc : c = '.'
    · rw [if_pos hc,
        joinDots_cons_ne acc.reverse (splitDotsAux [] t) (splitDotsAux_ne_nil t []), ih []]
      simp [hc]
    · rw [if_neg hc, ih (c :: acc)]
      simp

theorem joinDots_splitDots (s : PStr) : joinDots (splitDots s) = s := by
  unfold splitDots
  rw [joinDots_splitDotsAux]
  rfl

theorem splitDots_ne_nil (s : PStr) : splitDots s ≠ [] := splitDotsAux_ne_nil s []

theorem joinDots_append : ∀ (A B : List PStr), A ≠ [] → B ≠ [] →
    joinDots (A ++ B) = joinDots A ++ '.' :: joinDots B := by
  intro A
  induction A with
  | nil => intro B hA _; exact absurd rfl hA
  | cons x A2 ih =>
    intro B hA hB
    cases A2 with
    | nil =>
      rw [List.singleton_append, joinDots_cons_ne x B hB]
      rfl
    | cons y A3 =>
      rw [List.cons_append,
        joinDots_cons_ne x ((y :: A3) ++ B) (by simp),
        joinDots_cons_ne x (y :: A3) (by simp), ih B (by simp) hB]
      simp

theorem foldl_digit_shift : ∀ (s : PStr) (a : Nat),
    List.foldl (fun x c => x * 10 + (c.toNat - 48)) a s =
      a * 10 ^ s.length + List.foldl (fun x c => x * 10 + (c.toNat - 48)) 0 s := by
  intro s
  induction s with
  | nil => intro a; simp
  | cons c t ih =>
    intro a
    rw [List.foldl_cons, ih (a * 10 + (c.toNat - 48)), List.foldl_cons]
    rw [ih (0 * 10 + (c.toNat - 48))]
    simp only [List.length_cons, Nat.zero_mul, Nat.zero_add]
    ring

theorem strToNat_cons (c : Char) (s : PStr) :
    strToNat (c :: s) = (c.toNat - 48) * 10 ^ s.length + strToNat s := by
  unfold strToNat
  rw [List.foldl_cons, foldl_digit_shift s (0 * 10 + (c.toNat - 48))]
  simp

theorem digit_toNat_le {c : Char} (h : isAsciiDigit c = true) :
    48 ≤ c.toNat ∧ c.toNat ≤ 57 := by
  unfold isAsciiDigit at h
  simp only [Bool.and_eq_true, decide_eq_true_eq] at h
  exact h

theorem strToNat_lt : ∀ (s : PStr), s.all isAsciiDigit = true →
    strToNat s < 10 ^ s.length := by
  intro s
  induction s with
  | nil => intro _; simp [strToNat]
  | cons c t ih =>
    intro h
    simp only [List.all_cons, Bool.and_eq_true] at h
    rw [strToNat_cons, List.length_cons, pow_succ]
    have hd : c.toNat - 48 ≤ 9 := by
      have := digit_toNat_le h.1
      omega
    have hP : (0:Nat) < 10 ^ t.length := Nat.pos_pow_of_pos _ (by omega)
    have hmul : (c.toNat - 48) * 10 ^ t.length ≤ 9 * 10 ^ t.length :=
      Nat.mul_le_mul_right _ hd
    have hr := ih h.2
    omega

theorem strToNat_lower (c : Char) (s : PStr) (hc : isAsciiDigit c = true) (hne : c ≠ '0') :
    10 ^ s.length ≤ strToNat (c :: s) := by
  rw [strToNat_cons]
  have hd : 1 ≤ c.toNat - 48 := by
    have hb := digit_toNat_le hc
    have h0 : ('0').toNat = 48 := rfl
    rcases Nat.lt_or_ge 48 c.toNat with h | h
    · omega
    · exfalso
      exact hne (char_toNat_inj (by omega))
  have := Nat.mul_le_mul_right (10 ^ s.length) hd
  omega

theorem digit_str_inj_len : ∀ (s t : PStr), s.length = t.length →
    s.all isAsciiDigit = true → t.all isAsciiDigit = true →
    strToNat s = strToNat t → s = t := by
  intro s
  induction s with
  | nil =>
    intro t hlen _ _ _
    cases t with
    | nil => rfl
    | cons b u => cases hlen
  | cons a s2 ih =>
    intro t hlen hs ht hv
    cases t with
    | nil => cases hlen
    | cons b u =>
      simp only [List.length_cons, Nat.succ.injEq] at hlen
      simp only [List.all_cons, Bool.and_eq_true] at hs ht
      rw [strToNat_cons, strToNat_cons, hlen] at hv
      have hP : (0:Nat) < 10 ^ u.length := Nat.pos_pow_of_pos _ (by omega)
      have hs2 := strToNat_lt s2 hs.2
      have hu2 := strToNat_lt u ht.2
      rw [hlen] at hs2
      have hda : (a.toNat - 48) = ((10 ^ u.length) * (a.toNat - 48) + strToNat s2) / 10 ^ u.length := by
        rw [Nat.mul_add_div hP, Nat.div_eq_of_lt hs2]
        omega
      have hdb : (b.toNat - 48) = ((10 ^ u.length) * (b.toNat - 48) + strToNat u) / 10 ^ u.length := by
        rw [Nat.mul_add_div hP, Nat.div_eq_of_lt hu2]
        omega
      have hmc : (a.toNat - 48) * 10 ^ u.length = (10 ^ u.length) * (a.toNat - 48) := Nat.mul_comm _ _
      have hmd : (b.toNat - 48) * 10 ^ u.length = (10 ^ u.length) * (b.toNat - 48) := Nat.mul_comm _ _
      rw [hmc, hmd] at hv
      have hdig : a.toNat - 48 = b.toNat - 48 := by rw [hda, hdb, hv]
      have hab : a = b := by
        apply char_toNat_inj
        have ha48 := digit_toNat_le hs.1
        have hb48 := digit_toNat_le ht.1
        omega
      subst hab
      have hrest : strToNat s2 = strToNat u := by omega
      rw [ih u hlen hs.2 ht.2 hrest]

/-- A digit string free of leading zeros is determined by its value. -/
theorem digit_str_inj (s t : PStr) (hs0 : s ≠ []) (ht0 : t ≠ [])
    (hs : s.all isAsciiDigit = true) (ht : t.all isAsciiDigit = true)
    (hsz : s = ['0'] ∨ s.headD ' ' ≠ '0') (htz : t = ['0'] ∨ t.headD ' ' ≠ '0')
    (hv : strToNat s = strToNat t) : s = t := by
  rcases Nat.lt_trichotomy s.length t.length with hlen | hlen | hlen
  · exfalso
    obtain ⟨b, u, rfl⟩ := List.exists_cons_of_ne_nil ht0
    rcases htz with htz | htz
    · rw [htz] at hlen
      cases s with
      | nil => exact hs0 rfl
      | cons x xs =>
        simp only [List.length_cons, List.length_nil] at hlen
        omega
    · simp only [List.headD_cons] at htz
      simp only [List.all_cons, Bool.and_eq_true] at ht
      have hlow := strToNat_lower b u ht.1 htz
      have hup := strToNat_lt s hs
      have hmono : (10:Nat) ^ s.length ≤ 10 ^ u.length := by
        apply Nat.pow_le_pow_right (by omega)
        simp only [List.length_cons] at hlen
        omega
      have hc2 : strToNat s < strToNat s := by
        calc strToNat s < 10 ^ s.length := hup
        _ ≤ 10 ^ u.length := hmono
        _ ≤ strToNat (b :: u) := hlow
        _ = strToNat s := hv.symm
      exact absurd hc2 (lt_irrefl _)
  · exact digit_str_inj_len s t hlen hs ht hv
  · exfalso
    obtain ⟨b, u, rfl⟩ := List.exists_cons_of_ne_nil hs0
    rcases hsz with hsz | hsz
    · rw [hsz] at hlen
      cases t with
      | nil => exact ht0 rfl
      | cons x xs =>
        simp only [List.length_cons, List.length_nil] at hlen
        omega
    · simp only [List.headD_cons] at hsz
      simp only [List.all_cons, Bool.and_eq_true] at hs
      have hlow := strToNat_lower b u hs.1 hsz
      have hup := strToNat_lt t ht
      have hmono : (10:Nat) ^ t.length ≤ 10 ^ u.length := by
        apply Nat.pow_le_pow_right (by omega)
        simp only [List.length_cons] at hlen
        omega
      have hc2 : strToNat t < strToNat t := by
        calc strToNat t < 10 ^ t.length := hup
        _ ≤ 10 ^ u.length := hmono
        _ ≤ strToNat (b :: u) := hlow
        _ = strToNat t := hv
      exact absurd hc2 (lt_irrefl _)

theorem natCmpKeys_eq_then (p q : PStr) :
    natCmpKeys p q =
      (zipCmp partCmp ((splitDots p).map convertPart) ((splitDots q).map convertPart)).then
        (nCmp p.length q.length) := by
  unfold natCmpKeys
  cases zipCmp partCmp ((splitDots p).map convertPart) ((splitDots q).map convertPart) <;> rfl

theorem natCmpKeys_refl (s : PStr) : natCmpKeys s s = .eq := by
  rw [natCmpKeys_eq_then, zipCmp_refl partCmp partCmp_refl, nCmp_refl]
  rfl

theorem ordSwap_eq_gt {o : Ordering} : o.swap = .gt ↔ o = .lt := by
  cases o <;> simp [Ordering.swap]

theorem ordSwap_eq_lt {o : Ordering} : o.swap = .lt ↔ o = .gt := by
  cases o <;> simp [Ordering.swap]

theorem ordSwap_eq_eq {o : Ordering} : o.swap = .eq ↔ o = .eq := by
  cases o <;> simp [Ordering.swap]

theorem validPreId_parts_facts {s : PStr} (h : validPreId s = true) :
    s ≠ [] ∧ s.all preIdClass = true ∧
      (s.all isAsciiDigit = true → (s = ['0'] ∨ s.headD ' ' ≠ '0')) := by
  unfold validPreId at h
  simp only [Bool.and_eq_true, Bool.not_eq_true'] at h
  obtain ⟨⟨h1, h2⟩, h3⟩ := h
  refine ⟨?_, h2, ?_⟩
  · intro hnil
    rw [hnil] at h1
    cases h1
  · intro hdig
    rw [if_pos hdig] at h3
    simp only [Bool.or_eq_true, decide_eq_true_eq] at h3
    exact h3

theorem convertPart_inj {s t : PStr} (hs : validPreId s = true) (ht : validPreId t = true)
    (h : convertPart s = convertPart t) : s = t := by
  obtain ⟨hs0, -, hsz⟩ := validPreId_parts_facts hs
  obtain ⟨ht0, -, htz⟩ := validPreId_parts_facts ht
  unfold convertPart at h
  by_cases hds : (!s.isEmpty && s.all isAsciiDigit) = true <;>
    by_cases hdt : (!t.isEmpty && t.all isAsciiDigit) = true
  · rw [if_pos hds, if_pos hdt] at h
    simp only [Sum.inl.injEq] at h
    simp only [Bool.and_eq_true, Bool.not_eq_true'] at hds hdt
    exact digit_str_inj s t hs0 ht0 hds.2 hdt.2 (hsz hds.2) (htz hdt.2) h
  · rw [if_pos hds, if_neg hdt] at h
    cases h
  · rw [if_neg hds, if_pos hdt] at h
    cases h
  · rw [if_neg hds, if_neg hdt] at h
    simp only [Sum.inr.injEq] at h
    exact h

theorem validPre_parts {p : PStr} (h : validPre p = true) :
    ∀ x ∈ splitDots p, validPreId x = true := by
  unfold validPre at h
  exact List.all_eq_true.mp h

theorem validPre_ne_nil {p : PStr} (h : validPre p = true) : p ≠ [] := by
  intro hnil
  rw [hnil] at h
  exact absurd h (by decide)

theorem map_convertPart_prefix : ∀ (A B : List PStr),
    (∀ x ∈ A, validPreId x = true) → (∀ x ∈ B, validPreId x = true) →
    A.map convertPart <+: B.map convertPart → A <+: B := by
  intro A
  induction A with
  | nil => intro B _ _ _; exact List.nil_prefix
  | cons a A2 ih =>
    intro B hA hB h
    cases B with
    | nil =>
      rw [List.map_cons, List.map_nil] at h
      rw [List.prefix_nil] at h
      cases h
    | cons b B2 =>
      rw [List.map_cons, List.map_cons, List.cons_prefix_cons] at h
      have hab : a = b := convertPart_inj (hA a (List.mem_cons_self a A2))
        (hB b (List.mem_cons_self b B2)) h.1
      rw [hab]
      exact List.cons_prefix_cons.mpr ⟨rfl,
        ih B2 (fun x hx => hA x (List.mem_cons_of_mem a hx))
          (fun x hx => hB x (List.mem_cons_of_mem b hx)) h.2⟩

/-- On valid prerelease strings, the library's zip-then-string-length
comparison coincides with the lexicographic comparison (with shorter prefix
first) of the converted identifier lists. -/
theorem natCmpKeys_valid (p q : PStr) (hp : validPre p = true) (hq : validPre q = true) :
    natCmpKeys p q =
      lexCmp partCmp ((splitDots p).map convertPart) ((splitDots q).map convertPart) := by
  rw [natCmpKeys_eq_then]
  by_cases hz : zipCmp partCmp ((splitDots p).map convertPart)
      ((splitDots q).map convertPart) = .eq
  · rw [hz]
    show nCmp p.length q.length = _
    rcases zipCmp_eq_prefix partCmp partCmp_eq_iff _ _ hz with hpre | hpre
    · have hsp := map_convertPart_prefix (splitDots p) (splitDots q)
        (validPre_parts hp) (validPre_parts hq) hpre
      obtain ⟨C, hC⟩ := hsp
      cases C with
      | nil =>
        rw [List.append_nil] at hC
        have hpq : p = q := by
          rw [← joinDots_splitDots p, ← joinDots_splitDots q, hC]
        subst hpq
        rw [nCmp_refl, (lexCmp_eq_iff partCmp partCmp_eq_iff _ _).mpr rfl]
      | cons c0 C2 =>
        have hq2 : q = p ++ '.' :: joinDots (c0 :: C2) := by
          rw [← joinDots_splitDots q, ← hC,
            joinDots_append (splitDots p) (c0 :: C2) (splitDots_ne_nil p) (by simp),
            joinDots_splitDots]
        have hlen : p.length < q.length := by
          rw [hq2, List.length_append, List.length_cons]
          omega
        rw [(nCmp_lt_iff _ _).mpr hlen]
        have hmapB : (splitDots q).map convertPart =
            (splitDots p).map convertPart ++ convertPart c0 :: C2.map convertPart := by
          rw [← hC, List.map_append, List.map_cons]
        rw [hmapB, lexCmp_prefix_lt partCmp partCmp_refl]
    · have hsp := map_convertPart_prefix (splitDots q) (splitDots p)
        (validPre_parts hq) (validPre_parts hp) hpre
      obtain ⟨C, hC⟩ := hsp
      cases C with
      | nil =>
        rw [List.append_nil] at hC
        have hpq : q = p := by
          rw [← joinDots_splitDots p, ← joinDots_splitDots q, hC]
        subst hpq
        rw [nCmp_refl, (lexCmp_eq_iff partCmp partCmp_eq_iff _ _).mpr rfl]
      | cons c0 C2 =>
        have hp2 : p = q ++ '.' :: joinDots (c0 :: C2) := by
          rw [← joinDots_splitDots p, ← hC,
            joinDots_append (splitDots q) (c0 :: C2) (splitDots_ne_nil q), joinDots_splitDots]
          simp
        have hlen : q.length < p.length := by
          rw [hp2, List.length_append, List.length_cons]
          omega
        rw [(nCmp_gt_iff _ _).mpr hlen]
        have hmapA : (splitDots p).map convertPart =
            (splitDots q).map convertPart ++ convertPart c0 :: C2.map convertPart := by
          rw [← hC, List.map_append, List.map_cons]
        rw [lexCmp_swap partCmp partCmp_swap, hmapA,
          lexCmp_prefix_lt partCmp partCmp_refl]
        rfl
  · rw [ordThen_ne_eq _ hz]
    exact (zipCmp_ne_eq_lexCmp partCmp _ _ hz).symm

theorem natCmpKeys_eq_iff_valid {p q : PStr} (hp : validPre p = true)
    (hq : validPre q = true) : natCmpKeys p q = .eq ↔ p = q := by
  rw [natCmpKeys_valid p q hp hq, lexCmp_eq_iff partCmp partCmp_eq_iff]
  constructor
  · intro h
    have hAB : splitDots p <+: splitDots q :=
      map_convertPart_prefix _ _ (validPre_parts hp) (validPre_parts hq)
        (by rw [h])
    have hBA : splitDots q <+: splitDots p :=
      map_convertPart_prefix _ _ (validPre_parts hq) (validPre_parts hp)
        (by rw [← h])
    have hsd : splitDots p = splitDots q :=
      hAB.eq_of_length (Nat.le_antisymm hAB.length_le hBA.length_le)
    rw [← joinDots_splitDots p, ← joinDots_splitDots q, hsd]
  · intro h
    rw [h]

theorem natCmpKeys_swap_valid (p q : PStr) (hp : validPre p = true)
    (hq : validPre q = true) : natCmpKeys p q = (natCmpKeys q p).swap := by
  rw [natCmpKeys_valid p q hp hq, natCmpKeys_valid q p hq hp,
    lexCmp_swap partCmp partCmp_swap]

theorem natCmpKeys_lt_trans_valid {p q r : PStr} (hp : validPre p = true)
    (hq : validPre q = true) (hr : validPre r = true)
    (h1 : natCmpKeys p q = .lt) (h2 : natCmpKeys q r = .lt) : natCmpKeys p r = .lt := by
  rw [natCmpKeys_valid p q hp hq] at h1
  rw [natCmpKeys_valid q r hq hr] at h2
  rw [natCmpKeys_valid p r hp hr]
  exact lexCmp_lt_trans partCmp partCmp_eq_iff
    (fun hx hy => partCmp_lt_trans hx hy) _ _ _ h1 h2

/-- Whether a semantic version's prerelease part could have been produced by
a successful `semver.VersionInfo.parse`. -/
def validPreOpt : Option PStr → Prop
  | none => True
  | some p => validPre p = true

theorem optFalsy_some_ne_nil {p : PStr} (hp : p ≠ []) : optFalsy (some p) = false := by
  cases p with
  | nil => exact absurd rfl hp
  | cons c t => rfl

theorem prCmp_some_some {p q : PStr} (hp : validPre p = true) (hq : validPre q = true) :
    prCmp (some p) (some q) = natCmpKeys p q := by
  unfold prCmp
  simp only [Option.getD_some]
  cases hv : natCmpKeys p q with
  | eq => rfl
  | lt =>
    simp only [optFalsy_some_ne_nil (validPre_ne_nil hp),
      optFalsy_some_ne_nil (validPre_ne_nil hq)]
    rfl
  | gt =>
    simp only [optFalsy_some_ne_nil (validPre_ne_nil hp),
      optFalsy_some_ne_nil (validPre_ne_nil hq)]
    rfl

theorem natCmpKeys_nil_ne {p : PStr} (hp : validPre p = true) :
    natCmpKeys [] p ≠ .eq ∧ natCmpKeys p [] ≠ .eq := by
  obtain ⟨x, rest, hx⟩ := List.exists_cons_of_ne_nil (splitDots_ne_nil p)
  have hxv : validPreId x = true := validPre_parts hp x (by rw [hx]; exact List.mem_cons_self x rest)
  obtain ⟨hx0, -, -⟩ := validPreId_parts_facts hxv
  have hsdnil : splitDots ([] : PStr) = [[]] := rfl
  have hcp : partCmp (convertPart []) (convertPart x) ≠ .eq := by
    intro hcc
    have := (partCmp_eq_iff _ _).mp hcc
    have hxl : convertPart [] = Sum.inr [] := rfl
    rw [hxl] at this
    unfold convertPart at this
    by_cases hdx : (!x.isEmpty && x.all isAsciiDigit) = true
    · rw [if_pos hdx] at this
      cases this
    · rw [if_neg hdx] at this
      simp only [Sum.inr.injEq] at this
      exact hx0 this.symm
  constructor
  · rw [natCmpKeys_eq_then, hsdnil, hx]
    intro hcon
    rw [ordThen_eq_eq] at hcon
    rw [List.map_cons, List.map_cons, List.map_nil, zipCmp_cons] at hcon
    have := hcon.1
    rw [ordThen_eq_eq] at this
    exact hcp this.1
  · rw [natCmpKeys_eq_then, hsdnil, hx]
    intro hcon
    rw [ordThen_eq_eq] at hcon
    rw [List.map_cons, List.map_cons, List.map_nil, zipCmp_cons] at hcon
    have := hcon.1
    rw [ordThen_eq_eq] at this
    have hsw : partCmp (convertPart x) (convertPart []) = .eq := this.1
    rw [partCmp_swap] at hsw
    exact hcp (ordSwap_eq_eq.mp hsw)

theorem prCmp_none_some {p : PStr} (hp : validPre p = true) :
    prCmp none (some p) = .gt := by
  unfold prCmp
  simp only [Option.getD_none, Option.getD_some]
  cases hv : natCmpKeys [] p with
  | eq => exact absurd hv (natCmpKeys_nil_ne hp).1
  | lt => rfl
  | gt => rfl

theorem prCmp_some_none {p : PStr} (hp : validPre p = true) :
    prCmp (some p) none = .lt := by
  unfold prCmp
  simp only [Option.getD_none, Option.getD_some]
  cases hv : natCmpKeys p [] with
  | eq => exact absurd hv (natCmpKeys_nil_ne hp).2
  | lt =>
    simp only [optFalsy_some_ne_nil (validPre_ne_nil hp)]
    rfl
  | gt =>
    simp only [optFalsy_some_ne_nil (validPre_ne_nil hp)]
    rfl

theorem prCmp_refl (x : Option PStr) : prCmp x x = .eq := by
  unfold prCmp
  rw [natCmpKeys_refl]

/-- Transitivity step for the prerelease comparison: below-or-equal composed
with strictly-above, on parse-valid prereleases. -/
theorem prCmp_T {wp vp cp : Option PStr} (hw : validPreOpt wp) (hv : validPreOpt vp)
    (hc : validPreOpt cp) (h1 : prCmp wp cp ≠ .gt) (h2 : prCmp vp cp = .gt) :
    prCmp wp vp = .lt := by
  cases vp with
  | none =>
    cases cp with
    | none => rw [prCmp_refl] at h2; cases h2
    | some c =>
      cases wp with
      | none => exact absurd (prCmp_none_some hc) h1
      | some w => exact prCmp_some_none hw
  | some v =>
    cases cp with
    | none => rw [prCmp_some_none hv] at h2; cases h2
    | some c =>
      cases wp with
      | none => exact absurd (prCmp_none_some hc) h1
      | some w =>
        rw [prCmp_some_some hw hc] at h1
        rw [prCmp_some_some hv hc] at h2
        rw [prCmp_some_some hw hv]
        have hcv : natCmpKeys c v = .lt :=
          ordSwap_eq_gt.mp ((natCmpKeys_swap_valid v c hv hc).symm.trans h2)
        cases hwc : natCmpKeys w c with
        | gt => exact absurd hwc h1
        | eq =>
          obtain rfl := (natCmpKeys_eq_iff_valid hw hc).mp hwc
          exact hcv
        | lt => exact natCmpKeys_lt_trans_valid hw hc hv hwc hcv

theorem semverCompare_then (a b : SemVer) :
    semverCompare a b = (nCmp a.major b.major).then ((nCmp a.minor b.minor).then
      ((nCmp a.patch b.patch).then (prCmp a.prerelease b.prerelease))) := by
  unfold semverCompare
  cases nCmp a.major b.major <;> cases nCmp a.minor b.minor <;>
    cases nCmp a.patch b.patch <;> rfl

theorem semverCompare_refl (v : SemVer) : semverCompare v v = .eq := by
  rw [semverCompare_then, nCmp_refl, nCmp_refl, nCmp_refl, prCmp_refl]
  rfl

/-- Transitivity step used by the resolver invariant: a version that was not
above the retained one is strictly below any version strictly above it. -/
theorem semverCompare_T {w v cur : SemVer} (hw : validPreOpt w.prerelease)
    (hv : validPreOpt v.prerelease) (hc : validPreOpt cur.prerelease)
    (h1 : semverCompare w cur ≠ .gt) (h2 : semverCompare v cur = .gt) :
    semverCompare w v = .lt := by
  rw [semverCompare_then] at h1 h2 ⊢
  rw [ordThen_eq_gt] at h2
  rw [ordThen_eq_lt]
  rcases h2 with h2 | ⟨h2e, h2⟩
  · -- v.major > cur.major; w.major cannot exceed cur.major
    left
    rw [nCmp_gt_iff] at h2
    rw [nCmp_lt_iff]
    rcases Nat.lt_trichotomy w.major cur.major with hm | hm | hm
    · omega
    · omega
    · exact absurd (by rw [ordThen_ne_eq _ (by rw [(nCmp_gt_iff _ _).mpr hm]; intro hh; cases hh),
        (nCmp_gt_iff _ _).mpr hm]) h1
  · -- majors tie between v and cur
    rw [nCmp_eq_iff] at h2e
    rcases Nat.lt_trichotomy w.major cur.major with hm | hm | hm
    · left
      rw [nCmp_lt_iff]
      omega
    · -- majors all tie; descend to minor
      right
      refine ⟨(nCmp_eq_iff _ _).mpr (by omega), ?_⟩
      have h1m : (nCmp w.minor cur.minor).then
          ((nCmp w.patch cur.patch).then (prCmp w.prerelease cur.prerelease)) ≠ .gt := by
        intro hh
        exact h1 (by rw [(nCmp_eq_iff _ _).mpr hm, hh]; rfl)
      rw [ordThen_eq_gt] at h2
      rw [ordThen_eq_lt]
      rcases h2 with h2 | ⟨h2e2, h2⟩
      · left
        rw [nCmp_gt_iff] at h2
        rw [nCmp_lt_iff]
        rcases Nat.lt_trichotomy w.minor cur.minor with hn | hn | hn
        · omega
        · omega
        · exact absurd (by rw [ordThen_ne_eq _ (by rw [(nCmp_gt_iff _ _).mpr hn]; intro hh; cases hh),
            (nCmp_gt_iff _ _).mpr hn]) h1m
      · rw [nCmp_eq_iff] at h2e2
        rcases Nat.lt_trichotomy w.minor cur.minor with hn | hn | hn
        · left
          rw [nCmp_lt_iff]
          omega
        · -- minors tie; descend to patch
          right
          refine ⟨(nCmp_eq_iff _ _).mpr (by omega), ?_⟩
          have h1p : (nCmp w.patch cur.patch).then (prCmp w.prerelease cur.prerelease) ≠ .gt := by
            intro hh
            exact h1m (by rw [(nCmp_eq_iff _ _).mpr hn, hh]; rfl)
          rw [ordThen_eq_gt] at h2
          rw [ordThen_eq_lt]
          rcases h2 with h2 | ⟨h2e3, h2⟩
          · left
            rw [nCmp_gt_iff] at h2
            rw [nCmp_lt_iff]
            rcases Nat.lt_trichotomy w.patch cur.patch with hq | hq | hq
            · omega
            · omega
            · exact absurd (by rw [ordThen_ne_eq _
                (by rw [(nCmp_gt_iff _ _).mpr hq]; intro hh; cases hh), (nCmp_gt_iff _ _).mpr hq]) h1p
          · rw [nCmp_eq_iff] at h2e3
            rcases Nat.lt_trichotomy w.patch cur.patch with hq | hq | hq
            · left
              rw [nCmp_lt_iff]
              omega
            · -- patches tie; descend to prerelease
              right
              refine ⟨(nCmp_eq_iff _ _).mpr (by omega), ?_⟩
              have h1r : prCmp w.prerelease cur.prerelease ≠ .gt := by
                intro hh
                exact h1p (by rw [(nCmp_eq_iff _ _).mpr hq, hh]; rfl)
              exact prCmp_T hw hv hc h1r h2
            · exact absurd (by rw [ordThen_ne_eq _
                (by rw [(nCmp_gt_iff _ _).mpr hq]; intro hh; cases hh), (nCmp_gt_iff _ _).mpr hq]) h1p
        · exact absurd (by rw [ordThen_ne_eq _
            (by rw [(nCmp_gt_iff _ _).mpr hn]; intro hh; cases hh), (nCmp_gt_iff _ _).mpr hn]) h1m
    · exact absurd (by rw [ordThen_ne_eq _
        (by rw [(nCmp_gt_iff _ _).mpr hm]; intro hh; cases hh), (nCmp_gt_iff _ _).mpr hm]) h1

theorem semverParseTail_valid {r : PStr} {pb : Option PStr × Option PStr}
    (h : semverParseTail r = some pb) : validPreOpt pb.1 := by
  unfold semverParseTail at h
  split at h
  · obtain rfl := Option.some.inj h
    exact trivial
  · split at h
    · split at h
      · rename_i hval
        obtain rfl := Option.some.inj h
        exact hval
      · cases h
    · split at h
      · rename_i hval
        obtain rfl := Option.some.inj h
        simp only [Bool.and_eq_true] at hval
        exact hval.1
      · cases h
  · split at h
    · obtain rfl := Option.some.inj h
      exact trivial
    · cases h
  · cases h

theorem semverParse_valid {s : PStr} {v : SemVer} (h : semverParse s = some v) :
    validPreOpt v.prerelease := by
  unfold semverParse at h
  split at h
  · split at h
    · split at h
      split at h
      · rw [Option.map_eq_some'] at h
        obtain ⟨pb, hpb, rfl⟩ := h
        exact semverParseTail_valid hpb
      · cases h
    · cases h
  · cases h

theorem dirParse_valid {d n : PStr} {v : SemVer} (h : dirParse d = some (n, v)) :
    validPreOpt v.prerelease := by
  unfold dirParse at h
  split at h
  · cases h
  · split at h
    · cases h
    · rw [Option.map_eq_some'] at h
      obtain ⟨v0, hv0, heq⟩ := h
      injection heq with h1 h2
      subst h1
      subst h2
      exact semverParse_valid hv0

theorem dirParse_det {d n : PStr} {v v2 : SemVer} (h : dirParse d = some (n, v))
    (h2 : dirParse d = some (n, v2)) : v = v2 := by
  rw [h] at h2
  exact congrArg Prod.snd (Option.some.inj h2)

/-- `scanDir` on a directory whose parse succeeds performs the
find/compare/replace step of the resolver. -/
theorem scanDir_of_dirParse {st : List (PStr × PkgEntry)} {d n : PStr} {v : SemVer}
    (h : dirParse d = some (n, v)) :
    scanDir st d =
      match dictFind st n with
      | none => dictUpsert st n ⟨v, semverStr v, d⟩
      | some cur =>
        if semverCompare v cur.version_info = .gt then dictUpsert st n ⟨v, semverStr v, d⟩
        else st := by
  unfold dirParse at h
  unfold scanDir
  cases hm : pkgVersionMatch d with
  | none => rw [hm] at h; cases h
  | some g =>
    simp only [hm] at h ⊢
    by_cases hn : g.name = []
    · rw [if_pos hn] at h
      cases h
    · rw [if_neg hn] at h
      rw [if_neg hn]
      cases hp : semverParse (versionStrForParse g) with
      | none => rw [hp] at h; cases h
      | some v0 =>
        rw [hp] at h
        rw [Option.map_some'] at h
        injection Option.some.inj h with h1 h2
        subst h1
        subst h2
        rfl

/-- The resolver fold over a single-identifier listing retains exactly the
first-seen maximum. -/
theorem scan_fold_spec (n : PStr) :
    ∀ listing : List PStr, listing ≠ [] →
    (∀ d ∈ listing, ∃ v, dirParse d = some (n, v)) →
    ∃ e l₁ l₂,
      listing.foldl scanDir [] = [(n, e)] ∧
      listing = l₁ ++ e.dir :: l₂ ∧
      dirParse e.dir = some (n, e.version_info) ∧
      e.version_str = semverStr e.version_info ∧
      (∀ d ∈ listing, ∀ v, dirParse d = some (n, v) →
        semverCompare v e.version_info ≠ .gt) ∧
      (∀ d ∈ l₁, ∀ v, dirParse d = some (n, v) →
        semverCompare v e.version_info = .lt) := by
  intro listing
  induction listing using List.reverseRecOn with
  | nil => intro hne _; exact absurd rfl hne
  | append_singleton l d ih =>
    intro _ hall
    obtain ⟨v, hv⟩ := hall d (by simp)
    by_cases hl : l = []
    · subst hl
      refine ⟨⟨v, semverStr v, d⟩, [], [], ?_, rfl, hv, rfl, ?_, by simp⟩
      · rw [List.nil_append, List.foldl_cons, List.foldl_nil, scanDir_of_dirParse hv]
        rfl
      · intro d2 hd2 v2 hv2
        rw [List.nil_append, List.mem_singleton] at hd2
        subst hd2
        obtain rfl := dirParse_det hv hv2
        rw [semverCompare_refl]
        intro hh
        cases hh
    · obtain ⟨e, l₁, l₂, hfold, hsplit, hdp, hvs, hupper, hbefore⟩ :=
        ih hl (fun d2 hd2 => hall d2 (List.mem_append_left _ hd2))
      rw [List.foldl_append, List.foldl_cons, List.foldl_nil, hfold,
        scanDir_of_dirParse hv]
      have hfind : dictFind [(n, e)] n = some e := by simp [dictFind]
      simp only [hfind]
      by_cases hgt : semverCompare v e.version_info = .gt
      · rw [if_pos hgt]
        have hups : dictUpsert [(n, e)] n ⟨v, semverStr v, d⟩ =
            [(n, ⟨v, semverStr v, d⟩)] := by simp [dictUpsert]
        rw [hups]
        refine ⟨⟨v, semverStr v, d⟩, l, [], rfl, rfl, hv, rfl, ?_, ?_⟩
        · intro d2 hd2 v2 hv2
          rcases List.mem_append.mp hd2 with hd2 | hd2
          · have hlt : semverCompare v2 v = .lt :=
              semverCompare_T (dirParse_valid hv2) (dirParse_valid hv)
                (dirParse_valid hdp) (hupper d2 hd2 v2 hv2) hgt
            rw [hlt]
            intro hh
            cases hh
          · rw [List.mem_singleton] at hd2
            subst hd2
            obtain rfl := dirParse_det hv hv2
            rw [semverCompare_refl]
            intro hh
            cases hh
        · intro d2 hd2 v2 hv2
          exact semverCompare_T (dirParse_valid hv2) (dirParse_valid hv)
            (dirParse_valid hdp) (hupper d2 hd2 v2 hv2) hgt
      · rw [if_neg hgt]
        refine ⟨e, l₁, l₂ ++ [d], rfl, ?_, hdp, hvs, ?_, ?_⟩
        · rw [hsplit]
          simp [List.append_assoc]
        · intro d2 hd2 v2 hv2
          rcases List.mem_append.mp hd2 with hd2 | hd2
          · exact hupper d2 hd2 v2 hv2
          · rw [List.mem_singleton] at hd2
            subst hd2
            obtain rfl := dirParse_det hv hv2
            exact hgt
        · intro d2 hd2 v2 hv2
          exact hbefore d2 hd2 v2 hv2

/-! ### Claim C1 -/

def c1Name : PStr := ("foo").data

def c1Listing : List PStr :=
  [("foo.1.2.0-beta").data, ("foo.1.2.0").data, ("foo.1.2.0+x").data]

def c1Beta : SemVer := ⟨1, 2, 0, some (("beta").data), none⟩

def c1Rel : SemVer := ⟨1, 2, 0, none, none⟩

/-- C1: over any non-empty cache listing whose directory names all parse to the
same package identifier, `get_packages_from_cache` retains exactly one entry;
that entry is the first-seen directory achieving the maximum semantic version
(no parsed version is strictly greater, and every earlier directory parses
strictly lower, so version ties keep the first-seen directory); and the
ordering places a pre-release strictly below the same release without
suffix. -/
theorem C1_resolver_keeps_max :
    (∀ (n : PStr) (listing : List PStr), listing ≠ [] →
      (∀ d ∈ listing, (dirParse d).map Prod.fst = some n) →
      ∃ e l₁ l₂,
        get_packages_from_cache listing = [(n, e)] ∧
        listing = l₁ ++ e.dir :: l₂ ∧
        dirParse e.dir = some (n, e.version_info) ∧
        e.version_str = semverStr e.version_info ∧
        (∀ d ∈ listing, ∀ v, dirParse d = some (n, v) →
          semverCompare v e.version_info ≠ .gt) ∧
        (∀ d ∈ l₁, ∀ v, dirParse d = some (n, v) →
          semverCompare v e.version_info = .lt)) ∧
    (∀ a b : SemVer, a.major = b.major → a.minor = b.minor → a.patch = b.patch →
      (∃ p, a.prerelease = some p ∧ validPre p = true) → b.prerelease = none →
      semverCompare a b = .lt) := by
  constructor
  · intro n listing hne hall
    have hall2 : ∀ d ∈ listing, ∃ v, dirParse d = some (n, v) := by
      intro d hd
      have h := hall d hd
      cases hdp : dirParse d with
      | none => rw [hdp] at h; cases h
      | some p =>
        obtain ⟨a, v⟩ := p
        rw [hdp, Option.map_some'] at h
        have h1 : a = n := Option.some.inj h
        subst h1
        exact ⟨v, rfl⟩
    obtain ⟨e, l₁, l₂, h1, h2, h3, h4, h5, h6⟩ := scan_fold_spec n listing hne hall2
    exact ⟨e, l₁, l₂, h1, h2, h3, h4, h5, h6⟩
  · intro a b hmaj hmin hpat hpre hnone
    obtain ⟨p, hp, hpv⟩ := hpre
    rw [semverCompare_then, hmaj, hmin, hpat, nCmp_refl, nCmp_refl, nCmp_refl,
      hp, hnone]
    exact prCmp_some_none hpv

/-- Witness for C1 on a concrete listing: a pre-release, the bare release and
a build-suffixed tie for `foo`; the resolver keeps the first-seen maximum
`foo.1.2.0`, and `1.2.0-beta < 1.2.0`. -/
theorem C1_resolver_keeps_max_witness :
    (∃ e l₁ l₂,
      get_packages_from_cache c1Listing = [(c1Name, e)] ∧
      c1Listing = l₁ ++ e.dir :: l₂ ∧
      dirParse e.dir = some (c1Name, e.version_info) ∧
      e.version_str = semverStr e.version_info ∧
      (∀ d ∈ c1Listing, ∀ v, dirParse d = some (c1Name, v) →
        semverCompare v e.version_info ≠ .gt) ∧
      (∀ d ∈ l₁, ∀ v, dirParse d = some (c1Name, v) →
        semverCompare v e.version_info = .lt)) ∧
    semverCompare c1Beta c1Rel = .lt :=
  ⟨C1_resolver_keeps_max.1 c1Name c1Listing (by decide) (by decide),
   C1_resolver_keeps_max.2 c1Beta c1Rel rfl rfl rfl
     ⟨("beta").data, rfl, by decide⟩ rfl⟩
